import Mathlib

/-! Shallow embedding of `src/parsers.py` (class `PubMedXMLParser`): the text
cleaning pipeline `_clean_text`, numeric character reference decoding
`_decode_unicode_references`, the review classifiers `_is_review` and
`_is_review_in_text`, the field extractors `_get_date`, `_get_authors`,
`_get_texts`, and the record assembly `_get_abstract_data_from_xml_el` /
`parse_file`, together with theorems settling the specification's claims.

Python strings are modelled as `List Char` (wrapped in `String` at the API);
Python `dict`s as insertion-ordered association lists; Python exceptions as
`Except PyErr`.  All recursive scanners take explicit fuel bounded by the
input length so that every definition evaluates by kernel reduction. -/

namespace Parsers

/-- Whitespace characters matched by Python's `\s`, `str.strip` and string
formatting (ASCII range; Unicode whitespace beyond ASCII is not modelled). -/
def pyWs (c : Char) : Bool :=
  c = ' ' || c = '\t' || c = '\n' || c = '\r' || c = '\x0b' || c = '\x0c'

/-- The character class `[-,;]` of `_spaces_with_delimeter_re`. -/
def isDelim (c : Char) : Bool := c = '-' || c = ',' || c = ';'

/-- The character class `[ \-–,;]` appearing inside `_empty_brackets_re`
(space, hyphen, en-dash, comma, semicolon). -/
def isBrClass (c : Char) : Bool :=
  c = ' ' || c = '-' || c = '–' || c = ',' || c = ';'

/-- Python `str.lower` (ASCII case folding; the source only compares against
ASCII phrases such as "review"). -/
def pyLower (l : List Char) : List Char := l.map Char.toLower

/-- `pat` occurs at the start of `l`. -/
def beginsWith : List Char → List Char → Bool
  | [], _ => true
  | _ :: _, [] => false
  | p :: ps, c :: cs => p = c && beginsWith ps cs

/-- Python's substring test `pat in l`. -/
def containsSub (l pat : List Char) : Bool :=
  if beginsWith pat l then true
  else
    match l with
    | [] => false
    | _ :: r => containsSub r pat

/-- `int(...)` on a string of decimal digits. -/
def natOfDigits (l : List Char) : Nat :=
  l.foldl (fun a c => a * 10 + (c.toNat - 48)) 0

/-- Python's `chr`.  `chr(n)` succeeds for every code point `n ≤ 0x10FFFF`;
Lean's `Char` excludes the surrogate range `0xD800–0xDFFF`, which Python can
represent, so surrogate inputs are modelled as failure.  Every theorem below
stays outside that range. -/
def pyChr (n : Nat) : Option Char :=
  if _h : n.isValidChar then some (Char.ofNat n) else none

/-- The replacement computed by the callback of `_decode_unicode_references`:
`chr(int(id))`, falling back to the digit text `id` itself when the
conversion raises. -/
def pyChrRepl (ds : List Char) : List Char :=
  match pyChr (natOfDigits ds) with
  | some c => [c]
  | none => ds

/-- Scanner for one match of `&#(\d+)(;|(?=\s))` positioned right after the
`&`: `#`, then one or more ASCII digits, then either a consumed `;` or a
lookahead whitespace (not consumed).  Returns the replacement characters and
how many characters of the input were consumed. -/
def scanRefDec (l : List Char) : Option (List Char × Nat) :=
  match l with
  | '#' :: r =>
    let ds := r.takeWhile Char.isDigit
    if ds.isEmpty then none
    else
      match r.drop ds.length with
      | c :: _ =>
        if c = ';' then some (pyChrRepl ds, ds.length + 2)
        else if pyWs c then some (pyChrRepl ds, ds.length + 1)
        else none
      | [] => none
  | _ => none

/-- `_decode_unicode_references` as a left-to-right `re.sub` scan.  Fuel
drops by one per step and each step consumes at least one character, so any
fuel above the input length is enough. -/
def decodeURF : Nat → List Char → List Char
  | 0, _ => []
  | _ + 1, [] => []
  | fuel + 1, c :: rest =>
    if c = '&' then
      match scanRefDec rest with
      | some (repl, n) => repl ++ decodeURF fuel (rest.drop n)
      | none => '&' :: decodeURF fuel rest
    else c :: decodeURF fuel rest

/-- `PubMedXMLParser._decode_unicode_references`. -/
def decodeUR (l : List Char) : List Char := decodeURF (l.length + 1) l

/-! ### BeautifulSoup / html.parser model

`_clean_text` hands the fragment to `BeautifulSoup(text, 'html.parser')`.
We model the parts of that parser the source exercises: tag tokenization
(with `convert_charrefs=True`, so character references in data are decoded
while tokenizing), tree building with recovery for stray end tags, element
extraction and replacement, and `get_text`. -/

/-- One lexical token of the markup fragment. -/
inductive Tok where
  | ch (c : Char)
  | openT (name : String)
  | closeT (name : String)
deriving DecidableEq

/-- Scan for the closing `>` of a tag, honouring single- and double-quoted
attribute values.  Returns the number of characters consumed including the
`>`.  The second argument is the currently open quote, if any. -/
def findGt : List Char → Option Char → Option Nat
  | [], _ => none
  | c :: r, some q =>
    if c = q then (findGt r none).map (· + 1) else (findGt r (some q)).map (· + 1)
  | c :: r, none =>
    if c = '>' then some 1
    else if c = '"' || c = '\x27' then (findGt r (some c)).map (· + 1)
    else (findGt r none).map (· + 1)

/-- A character html.parser accepts inside a tag name. -/
def tagNameChar (c : Char) : Bool := c.isAlphanum || c = '-' || c = '_' || c = ':' || c = '.'

/-- The HTML5 replacements `html.unescape` applies to numeric references that
do not denote a usable code point: `0`, values beyond `0x10FFFF` and
surrogates become U+FFFD, `0x0D` becomes CR, and `0x80`–`0x9F` go through the
Windows-1252 table.  (The table of control code points that unescape maps to
the empty string is not modelled; no input below exercises it.) -/
def bsDecodeCharref (n : Nat) : List Char :=
  if n = 0 then ['�']
  else if n > 0x10FFFF then ['�']
  else if 0xD800 ≤ n && n ≤ 0xDFFF then ['�']
  else if n = 0x0D then ['\x0D']
  else if n = 0x80 then ['€'] else if n = 0x82 then ['‚']
  else if n = 0x83 then ['ƒ'] else if n = 0x84 then ['„']
  else if n = 0x85 then ['…'] else if n = 0x86 then ['†']
  else if n = 0x87 then ['‡'] else if n = 0x88 then ['ˆ']
  else if n = 0x89 then ['‰'] else if n = 0x8A then ['Š']
  else if n = 0x8B then ['‹'] else if n = 0x8C then ['Œ']
  else if n = 0x8E then ['Ž'] else if n = 0x91 then ['‘']
  else if n = 0x92 then ['’'] else if n = 0x93 then ['“']
  else if n = 0x94 then ['”'] else if n = 0x95 then ['•']
  else if n = 0x96 then ['–'] else if n = 0x97 then ['—']
  else if n = 0x98 then ['˜'] else if n = 0x99 then ['™']
  else if n = 0x9A then ['š'] else if n = 0x9B then ['›']
  else if n = 0x9C then ['œ'] else if n = 0x9E then ['ž']
  else if n = 0x9F then ['Ÿ']
  else
    match pyChr n with
    | some c => [c]
    | none => ['�']

/-- A (small) slice of the HTML5 named character reference table; the rest of
the table behaves identically and is not needed by any input below. -/
def namedRef (name : List Char) : Option Char :=
  if name = "amp".toList then some '&'
  else if name = "lt".toList then some '<'
  else if name = "gt".toList then some '>'
  else if name = "quot".toList then some '"'
  else if name = "apos".toList then some '\x27'
  else if name = "nbsp".toList then some ' '
  else none

/-- Hexadecimal digit test. -/
def isHexDigit (c : Char) : Bool :=
  c.isDigit || ('a' ≤ c && c ≤ 'f') || ('A' ≤ c && c ≤ 'F')

/-- Value of one hexadecimal digit. -/
def hexVal (c : Char) : Nat :=
  if c.isDigit then c.toNat - 48
  else if 'a' ≤ c && c ≤ 'f' then c.toNat - 87
  else c.toNat - 55

/-- `int(..., 16)` on hexadecimal digits. -/
def natOfHexDigits (l : List Char) : Nat :=
  l.foldl (fun a c => a * 16 + hexVal c) 0

/-- Scanner for one character reference positioned right after a `&` in
character data, following `html.unescape`: decimal `&#d+`, hexadecimal
`&#x…`, or a named reference (the latter only with its closing `;`); a
trailing `;` is consumed when present.  Returns the replacement characters
and how many input characters were consumed, or `none` to leave the `&`
as literal text. -/
def scanRefBS (l : List Char) : Option (List Char × Nat) :=
  match l with
  | '#' :: r =>
    match r with
    | x :: r2 =>
      if x = 'x' || x = 'X' then
        let ds := r2.takeWhile isHexDigit
        if ds.isEmpty then none
        else
          let n := 2 + ds.length
          match r2.drop ds.length with
          | ';' :: _ => some (bsDecodeCharref (natOfHexDigits ds), n + 1)
          | _ => some (bsDecodeCharref (natOfHexDigits ds), n)
      else
        let ds := r.takeWhile Char.isDigit
        if ds.isEmpty then none
        else
          let n := 1 + ds.length
          match r.drop ds.length with
          | ';' :: _ => some (bsDecodeCharref (natOfDigits ds), n + 1)
          | _ => some (bsDecodeCharref (natOfDigits ds), n)
    | [] => none
  | _ =>
    let nm := l.takeWhile Char.isAlphanum
    if nm.isEmpty then none
    else
      match l.drop nm.length with
      | ';' :: _ =>
        match namedRef nm with
        | some c => some ([c], nm.length + 1)
        | none => none
      | _ => none

/-- Tokens for one start tag whose source (after `<`) is `rest`, with the
closing `>` at index `n - 1`: a lowercased open token, plus a matching close
token if the tag is self-closing (`…/>`). -/
def startTagToks (rest : List Char) (n : Nat) : List Tok :=
  let name := ((rest.takeWhile tagNameChar).map Char.toLower).asString
  if (rest.take (n - 1)).getLast? = some '/' then
    [Tok.openT name, Tok.closeT name]
  else
    [Tok.openT name]

/-- Name of the end tag whose source (after `</`) starts at `rest`. -/
def endTagName (rest : List Char) : String :=
  ((rest.takeWhile tagNameChar).map Char.toLower).asString

/-- html.parser tokenization with `convert_charrefs=True`: `<` starts a tag
when followed by a letter, `/`, `!` or `?` (otherwise it is data); an
unterminated tag at end of input is emitted as data; `&` starts a character
reference.  Fuel drops by one per step; each step consumes at least one
character. -/
def tokenizeF : Nat → List Char → List Tok
  | 0, _ => []
  | _ + 1, [] => []
  | fuel + 1, c0 :: rest =>
    if c0 = '<' then
      match rest with
      | c :: rtail =>
        if c.isAlpha then
          match findGt rest none with
          | some n => startTagToks rest n ++ tokenizeF fuel (rest.drop n)
          | none => ('<' :: rest).map Tok.ch
        else if c = '/' then
          match findGt rest none with
          | some n => Tok.closeT (endTagName rtail) :: tokenizeF fuel (rest.drop n)
          | none => ('<' :: rest).map Tok.ch
        else if c = '!' || c = '?' then
          match findGt rest none with
          | some n => tokenizeF fuel (rest.drop n)
          | none => ('<' :: rest).map Tok.ch
        else
          Tok.ch '<' :: tokenizeF fuel rest
      | [] => [Tok.ch '<']
    else if c0 = '&' then
      match scanRefBS rest with
      | some (repl, n) => repl.map Tok.ch ++ tokenizeF fuel (rest.drop n)
      | none => Tok.ch '&' :: tokenizeF fuel rest
    else Tok.ch c0 :: tokenizeF fuel rest

/-- Tokenize a whole fragment. -/
def tokenize (l : List Char) : List Tok := tokenizeF (l.length + 1) l

/-- A node of the soup: character data (one character per node) or an
element with its children. -/
inductive Node where
  | text (c : Char)
  | elem (name : String) (children : List Node)

/-- Build a forest from the token stream the way html.parser's tree builder
does: an end tag closes elements up to the nearest open element with the
same name and is dropped when no such element is open; elements left open at
the end of input contain the rest of the document.  `anc` is the stack of
currently open element names; the function returns the siblings parsed at
this level together with the unconsumed tokens (which start with an end tag
belonging to an enclosing level, if any).  Fuel drops by one per recursive
call; `toks.length` is always enough. -/
def parseNodes : Nat → List Tok → List String → List Node × List Tok
  | 0, toks, _ => ([], toks)
  | _ + 1, [], _ => ([], [])
  | fuel + 1, Tok.ch c :: r, anc =>
    let (ns, r') := parseNodes fuel r anc
    (Node.text c :: ns, r')
  | fuel + 1, Tok.openT name :: r, anc =>
    let (kids, r') := parseNodes fuel r (name :: anc)
    match r' with
    | Tok.closeT m :: r'' =>
      if m = name then
        let (ns, r''') := parseNodes fuel r'' anc
        (Node.elem name kids :: ns, r''')
      else
        ([Node.elem name kids], Tok.closeT m :: r'')
    | _ => ([Node.elem name kids], r')
  | fuel + 1, Tok.closeT m :: r, anc =>
    if m ∈ anc then ([], Tok.closeT m :: r) else parseNodes fuel r anc

/-- Parse a token stream into a forest. -/
def parseForest (toks : List Tok) : List Node := (parseNodes toks.length toks []).1

/-- `soup.find_all(["xref", "a"]) … .extract()`: remove every element named
in `names`, together with its entire subtree.  Fuel drops by one per call;
twice the token count always suffices. -/
def removeTaggedF (names : List String) : Nat → List Node → List Node
  | 0, _ => []
  | _ + 1, [] => []
  | fuel + 1, Node.text c :: r => Node.text c :: removeTaggedF names fuel r
  | fuel + 1, Node.elem n kids :: r =>
    if n ∈ names then removeTaggedF names fuel r
    else Node.elem n (removeTaggedF names fuel kids) :: removeTaggedF names fuel r

/-- `get_text`: all character data of a forest, in document order. -/
def textOfForestF : Nat → List Node → List Char
  | 0, _ => []
  | _ + 1, [] => []
  | fuel + 1, Node.text c :: r => c :: textOfForestF fuel r
  | fuel + 1, Node.elem _ kids :: r => textOfForestF fuel kids ++ textOfForestF fuel r

/-- `soup.find_all(["sub", "sup"]) … .replace_with(f'-{el.text}')`: each
subscript/superscript element becomes literal text `-` followed by the
element's own text content.  (Elements nested inside a replaced one were
already detached, matching bs4's behaviour of mutating a detached tree.) -/
def replaceSubSupF : Nat → List Node → List Node
  | 0, _ => []
  | _ + 1, [] => []
  | fuel + 1, Node.text c :: r => Node.text c :: replaceSubSupF fuel r
  | fuel + 1, Node.elem n kids :: r =>
    if n = "sub" || n = "sup" then
      Node.text '-' :: (textOfForestF fuel kids).map Node.text ++ replaceSubSupF fuel r
    else
      Node.elem n (replaceSubSupF fuel kids) :: replaceSubSupF fuel r

/-- Lines 75–83 of `_clean_text`: parse with BeautifulSoup, extract `xref`
and `a` elements, replace `sub`/`sup` by `-`-prefixed text, then `get_text`. -/
def bsGetText (l : List Char) : List Char :=
  let toks := tokenize l
  let fuel := 2 * toks.length + 2
  textOfForestF fuel (replaceSubSupF fuel (removeTaggedF ["xref", "a"] fuel (parseForest toks)))

/-! ### The regular expression passes of `_clean_text` -/

/-- One attempt of the group `\s+[-,;]\s+?` of `_spaces_with_delimeter_re`
at the current position: a nonempty whitespace run, a delimiter, then (the
lazy `\s+?` never extends past) exactly one whitespace character.  Returns
the rest of the input after the consumed span. -/
def matchA (l : List Char) : Option (List Char) :=
  match l with
  | [] => none
  | c :: _ =>
    if pyWs c then
      match l.dropWhile pyWs with
      | d :: e :: r => if isDelim d && pyWs e then some r else none
      | _ => none
    else none

/-- The greedy `+` over the group: keep taking further iterations while one
matches.  Fuel drops by one per iteration. -/
def delimIterF : Nat → List Char → List Char
  | 0, l => l
  | fuel + 1, l =>
    match matchA l with
    | some r => delimIterF fuel r
    | none => l

/-- One match of `(\s+[-,;]\s+?)+` at the current position: at least one
iteration of the group, then as many more as fit. -/
def matchDelim (l : List Char) : Option (List Char) :=
  match matchA l with
  | some r => some (delimIterF (r.length + 1) r)
  | none => none

/-- `_spaces_with_delimeter_re.sub(' ', text)`: scan left to right, replace
each match by a single space, continue after the match. -/
def delimSubF : Nat → List Char → List Char
  | 0, _ => []
  | _ + 1, [] => []
  | fuel + 1, c :: rest =>
    match matchDelim (c :: rest) with
    | some r => ' ' :: delimSubF fuel r
    | none => c :: delimSubF fuel rest

def delimSub (l : List Char) : List Char := delimSubF (l.length + 1) l

/-- One match of `_empty_brackets_re` at the current position:
`(\s*?\[[ \-–,;]*?\])` — optional whitespace, `[`, interior made only of
space/hyphen/en-dash/comma/semicolon, `]` — or `(\s+?\([ \-–,;]*?\))`, the
same with parentheses but requiring at least one leading whitespace
character.  Returns the rest of the input after the consumed span. -/
def matchBrackets (l : List Char) : Option (List Char) :=
  let b1 :=
    match l.dropWhile pyWs with
    | '[' :: r =>
      match r.dropWhile isBrClass with
      | ']' :: r2 => some r2
      | _ => none
    | _ => none
  match b1 with
  | some r => some r
  | none =>
    match l with
    | c :: _ =>
      if pyWs c then
        match l.dropWhile pyWs with
        | '(' :: r =>
          match r.dropWhile isBrClass with
          | ')' :: r2 => some r2
          | _ => none
        | _ => none
      else none
    | [] => none

/-- `_empty_brackets_re.sub('', text)`. -/
def bracketsSubF : Nat → List Char → List Char
  | 0, _ => []
  | _ + 1, [] => []
  | fuel + 1, c :: rest =>
    match matchBrackets (c :: rest) with
    | some r => bracketsSubF fuel r
    | none => c :: bracketsSubF fuel rest

def bracketsSub (l : List Char) : List Char := bracketsSubF (l.length + 1) l

/-- `_whitespaces_re.sub(' ', text)`: every run of two or more whitespace
characters becomes a single space; an isolated whitespace character is kept
as it is. -/
def wsCollapseF : Nat → List Char → List Char
  | 0, _ => []
  | _ + 1, [] => []
  | fuel + 1, c :: rest =>
    if pyWs c then
      match rest with
      | d :: _ =>
        if pyWs d then ' ' :: wsCollapseF fuel (rest.dropWhile pyWs)
        else c :: wsCollapseF fuel rest
      | [] => [c]
    else c :: wsCollapseF fuel rest

def wsCollapse (l : List Char) : List Char := wsCollapseF (l.length + 1) l

/-- Python `str.strip()`. -/
def pyStripL (l : List Char) : List Char :=
  ((l.dropWhile pyWs).reverse.dropWhile pyWs).reverse

/-- `PubMedXMLParser._clean_text` on character lists: BeautifulSoup pass
(remove `xref`/`a`, replace `sub`/`sup`, strip tags), decode numeric
character references, drop uninformative bracket groups, collapse
whitespace-wrapped delimiters, collapse whitespace runs, strip. -/
def cleanTextL (l : List Char) : List Char :=
  pyStripL (wsCollapse (delimSub (bracketsSub (decodeUR (bsGetText l)))))

/-- `PubMedXMLParser._clean_text`. -/
def cleanText (s : String) : String := (cleanTextL s.toList).asString

/-! ### lxml element model

`parse_file` receives the parsed document as an `lxml.etree` element tree;
the tree itself (tag, attributes, text, children, tail) is the input of the
embedding — XML parsing of the raw byte input is out of scope, as the spec
places reading and parsing errors with the caller. -/

/-- An `lxml.etree._Element`: tag, attributes, text before the first child,
children in document order, and the tail text following the element. -/
inductive Elem where
  | mk (tag : String) (attrib : List (String × String)) (text : Option String)
       (children : List Elem) (tail : Option String)

def Elem.tag : Elem → String
  | .mk t _ _ _ _ => t

def Elem.attrib : Elem → List (String × String)
  | .mk _ a _ _ _ => a

def Elem.text : Elem → Option String
  | .mk _ _ x _ _ => x

def Elem.children : Elem → List Elem
  | .mk _ _ _ c _ => c

def Elem.tail : Elem → Option String
  | .mk _ _ _ _ t => t

/-- `el.findall(tag)` for a plain tag: matching direct children, in order. -/
def findall (e : Elem) (tag : String) : List Elem :=
  e.children.filter (fun c => c.tag = tag)

/-- `el.find(tag)` for a plain tag: first matching direct child. -/
def find (e : Elem) (tag : String) : Option Elem :=
  (findall e tag).head?

/-- `el.find('A/B/…')`: ElementPath evaluates each path step against all
elements selected so far and `find` takes the first result in document
order. -/
def findPathList (es : List Elem) : List String → List Elem
  | [] => es
  | t :: ts => findPathList (es.flatMap (fun e => findall e t)) ts

def findPath (e : Elem) (ts : List String) : Option Elem :=
  (findPathList [e] ts).head?

/-- Escape of character data in `etree.tostring` output. -/
def xmlEscape (s : String) : String :=
  s.toList.foldr
    (fun c acc =>
      if c = '&' then "&amp;" ++ acc
      else if c = '<' then "&lt;" ++ acc
      else if c = '>' then "&gt;" ++ acc
      else String.singleton c ++ acc) ""

def optTextStr : Option String → String
  | none => ""
  | some s => xmlEscape s

/-- `etree.tostring(el).decode('utf-8')` (fuel bounds element nesting depth;
documents deeper than 64 levels are not modelled).  Matches lxml's output:
attributes double-quoted, `<Tag/>` for an element with no text and no
children, and the element's tail appended (`with_tail` defaults to true). -/
def tostringF : Nat → Elem → String
  | 0, _ => ""
  | fuel + 1, e =>
    let attrs := String.join (e.attrib.map (fun p => " " ++ p.1 ++ "=\"" ++ xmlEscape p.2 ++ "\""))
    let body :=
      if e.text = none && e.children.isEmpty then
        "<" ++ e.tag ++ attrs ++ "/>"
      else
        "<" ++ e.tag ++ attrs ++ ">" ++ optTextStr e.text
          ++ String.join (e.children.map (tostringF fuel))
          ++ "</" ++ e.tag ++ ">"
    body ++ (match e.tail with | none => "" | some t => xmlEscape t)

def tostring (e : Elem) : String := tostringF 64 e

/-! ### Python dictionaries, values and errors -/

/-- Insertion-ordered Python `dict` with string keys: assignment overwrites
in place or appends at the end. -/
def dictSet {α : Type} (d : List (String × α)) (k : String) (v : α) : List (String × α) :=
  if d.any (fun p => p.1 = k) then
    d.map (fun p => if p.1 = k then (k, v) else p)
  else d ++ [(k, v)]

/-- `d.get(k)` / `k in d` support. -/
def pyGet {α : Type} (d : List (String × α)) (k : String) : Option α :=
  (d.find? (fun p => p.1 = k)).map (fun p => p.2)

def hasKey {α : Type} (d : List (String × α)) (k : String) : Bool :=
  d.any (fun p => p.1 = k)

/-- A calendar date produced by `datetime.datetime.strptime(..., '%Y-%m-%d')`. -/
structure PyDate where
  year : Nat
  month : Nat
  day : Nat
deriving DecidableEq

/-- One abstract segment: `{'text': …}` plus the optional `'nlm_category'`
key. -/
structure Segment where
  text : String
  nlmCategory : Option String
deriving DecidableEq

/-- An author dict maps output field names to the sub-element texts (which
may be `None`). -/
abbrev PyAuthor := List (String × Option String)

/-- A value stored in the article data dict. -/
inductive Val where
  | none
  | str (s : String)
  | texts (l : List Segment)
  | authors (l : List PyAuthor)
  | date (d : PyDate)
deriving DecidableEq

/-- The article data dict. -/
abbrev Record := List (String × Val)

/-- The Python exceptions the source can raise. -/
inductive PyErr where
  | attributeError
  | typeError
  | valueError
deriving DecidableEq

def valOfOptStr : Option String → Val
  | Option.none => Val.none
  | some s => Val.str s

def valOfOptDate : Option PyDate → Val
  | Option.none => Val.none
  | some d => Val.date d

/-- `f'{x}'` on an optional string: `None` prints as `"None"`. -/
def pyStrOfOpt : Option String → String
  | Option.none => "None"
  | some s => s

/-! ### `strptime(f'{year}-{month}-{day}', '%Y-%m-%d')`

CPython compiles the format to the regular expression
`(?P<Y>\d\d\d\d)-(?P<m>1[0-2]|0[1-9]|[1-9])-(?P<d>3[01]|[12]\d|0[1-9]|[1-9])`,
requires the match to consume the whole string, and then builds a
`datetime`, which validates the calendar day and `MINYEAR = 1`. -/

/-- Candidate parses of `1[0-2]|0[1-9]|[1-9]`, in engine order (two-digit
alternatives first, the one-digit fallback last). -/
def parseMonth : List Char → List (Nat × List Char)
  | a :: b :: r =>
    (if a = '1' && '0' ≤ b && b ≤ '2' then [(10 + (b.toNat - 48), r)]
     else if a = '0' && '1' ≤ b && b ≤ '9' then [(b.toNat - 48, r)]
     else [])
    ++ (if '1' ≤ a && a ≤ '9' then [(a.toNat - 48, b :: r)] else [])
  | [a] => if '1' ≤ a && a ≤ '9' then [(a.toNat - 48, [])] else []
  | [] => []

/-- Candidate parses of `3[01]|[12]\d|0[1-9]|[1-9]`, in engine order. -/
def parseDay : List Char → List (Nat × List Char)
  | a :: b :: r =>
    (if a = '3' && '0' ≤ b && b ≤ '1' then [(30 + (b.toNat - 48), r)]
     else if ('1' ≤ a && a ≤ '2') && b.isDigit then [((a.toNat - 48) * 10 + (b.toNat - 48), r)]
     else if a = '0' && '1' ≤ b && b ≤ '9' then [(b.toNat - 48, r)]
     else [])
    ++ (if '1' ≤ a && a ≤ '9' then [(a.toNat - 48, b :: r)] else [])
  | [a] => if '1' ≤ a && a ≤ '9' then [(a.toNat - 48, [])] else []
  | [] => []

def isLeap (y : Nat) : Bool := y % 4 = 0 && (y % 100 ≠ 0 || y % 400 = 0)

def daysInMonth (y m : Nat) : Nat :=
  if m = 2 then (if isLeap y then 29 else 28)
  else if m = 4 || m = 6 || m = 9 || m = 11 then 30
  else 31

/-- `datetime.datetime(y, m, d)` validity (month is already `1..12` from the
regular expression; the year is at most 9999 since `%Y` is four digits). -/
def mkValidDate (y m d : Nat) : Option PyDate :=
  if 1 ≤ y && 1 ≤ d && d ≤ daysInMonth y m then some ⟨y, m, d⟩ else none

def strptimeYMD (s : String) : Option PyDate :=
  match s.toList with
  | y1 :: y2 :: y3 :: y4 :: '-' :: rest =>
    if y1.isDigit && y2.isDigit && y3.isDigit && y4.isDigit then
      (parseMonth rest).findSome? (fun p =>
        match p.2 with
        | '-' :: rest3 =>
          (parseDay rest3).findSome? (fun q =>
            if q.2.isEmpty then mkValidDate (natOfDigits [y1, y2, y3, y4]) p.1 q.1
            else none)
        | _ => none)
    else none
  | _ => none

/-- `PubMedXMLParser._get_date`: `None` when the container is absent;
`AttributeError` when a `Year`/`Month`/`Day` sub-element is absent (the
source calls `.text` on the result of `find` without a `None` check);
`ValueError` when `strptime` rejects the combined string. -/
def getDate (el : Elem) (key : String) : Except PyErr (Option PyDate) :=
  match find el key with
  | Option.none => Except.ok Option.none
  | some dateEl =>
    match find dateEl "Year" with
    | Option.none => Except.error PyErr.attributeError
    | some y =>
      match find dateEl "Month" with
      | Option.none => Except.error PyErr.attributeError
      | some m =>
        match find dateEl "Day" with
        | Option.none => Except.error PyErr.attributeError
        | some d =>
          match strptimeYMD (pyStrOfOpt y.text ++ "-" ++ pyStrOfOpt m.text
              ++ "-" ++ pyStrOfOpt d.text) with
          | Option.none => Except.error PyErr.valueError
          | some dt => Except.ok (some dt)

/-! ### Authors, abstract texts and review classification -/

/-- `author_name_parse_map`. -/
def authorNameMap (tag : String) : Option String :=
  if tag = "ForeName" then some "first_name"
  else if tag = "LastName" then some "last_name"
  else if tag = "Initials" then some "initials"
  else if tag = "Suffix" then some "suffix"
  else none

/-- One `name_el` of the inner loop of `_get_authors`. -/
def authorStep (acc : PyAuthor × Option String) (ne : Elem) : PyAuthor × Option String :=
  match authorNameMap ne.tag with
  | some f => (dictSet acc.1 f ne.text, acc.2)
  | Option.none => if ne.tag = "CollectiveName" then (acc.1, ne.text) else acc

/-- The outer loop of `_get_authors` over `Author` elements; `coll` is the
running `collective_name` variable. -/
def getAuthorsAux : Option String → List Elem → List PyAuthor × Option String
  | coll, [] => ([], coll)
  | coll, aEl :: rest =>
    let s := aEl.children.foldl authorStep ([], coll)
    let t := getAuthorsAux s.2 rest
    (if s.1.isEmpty then t.1 else s.1 :: t.1, t.2)

/-- `PubMedXMLParser._get_authors`. -/
def getAuthors (articleEl : Elem) : List PyAuthor × Option String :=
  match find articleEl "AuthorList" with
  | Option.none => ([], Option.none)
  | some al => getAuthorsAux Option.none (findall al "Author")

/-- `PubMedXMLParser._get_texts`: each `AbstractText` is serialised, cleaned,
kept only when non-empty, and annotated with its `NlmCategory` attribute
when present. -/
def getTexts (articleEl : Elem) : List Segment :=
  match find articleEl "Abstract" with
  | Option.none => []
  | some ab =>
    (findall ab "AbstractText").filterMap (fun e =>
      let t := cleanText (tostring e)
      if t.isEmpty then Option.none else some ⟨t, pyGet e.attrib "NlmCategory"⟩)

/-- `'review' in el.text.lower()` guarded by the source's `is not None`
check. -/
def textHasReview (o : Option String) : Bool :=
  match o with
  | Option.none => false
  | some t => containsSub (pyLower t.toList) "review".toList

/-- The MeSH-heading loop of `_is_review`: a missing `DescriptorName`
element raises (`None.text`), a `DescriptorName` with no text is skipped. -/
def meshLoop : List Elem → Except PyErr Bool
  | [] => Except.ok false
  | mh :: rest =>
    match find mh "DescriptorName" with
    | Option.none => Except.error PyErr.attributeError
    | some dn =>
      match dn.text with
      | Option.none => meshLoop rest
      | some t =>
        if containsSub (pyLower t.toList) "review".toList then Except.ok true
        else meshLoop rest

/-- `PubMedXMLParser._is_review`: publication types, then MeSH headings,
then keywords, each list optional; the `Article` element is dereferenced
unconditionally. -/
def isReview (mc : Elem) : Except PyErr Bool :=
  match find mc "Article" with
  | Option.none => Except.error PyErr.attributeError
  | some articleEl =>
    let r1 :=
      match find articleEl "PublicationTypeList" with
      | Option.none => false
      | some l => (findall l "PublicationType").any (fun e => textHasReview e.text)
    if r1 then Except.ok true
    else
      match
        (match find mc "MeshHeadingList" with
         | Option.none => Except.ok false
         | some ml => meshLoop (findall ml "MeshHeading")) with
      | Except.error e => Except.error e
      | Except.ok true => Except.ok true
      | Except.ok false =>
        Except.ok
          (match find mc "KeywordList" with
           | Option.none => false
           | some kl => (findall kl "Keyword").any (fun e => textHasReview e.text))

/-- The fixed phrase list of `_is_review_in_text`. -/
def filteringPhrases : List (List Char) := ["systematic review".toList]

/-- `PubMedXMLParser._is_review_in_text`. -/
def isReviewInText (s : String) : Bool :=
  filteringPhrases.any (fun p => containsSub (pyLower s.toList) p)

/-! ### Record assembly -/

/-- Python `repr` of a string (the escaping repr applies to quotes and
backslashes inside the string is not modelled; only the surrounding
quotation structure matters below). -/
def pyReprStr (s : String) : String := "\x27" ++ s ++ "\x27"

/-- The `'nlm_category'` part of a segment dict repr, when present. -/
def segCatRepr (g : Segment) : String :=
  match g.nlmCategory with
  | Option.none => ""
  | some c => ", \x27nlm_category\x27: " ++ pyReprStr c

/-- Python `repr` of one segment dict, keys in insertion order. -/
def pyReprSegment (g : Segment) : String :=
  "\x7b\x27text\x27: " ++ pyReprStr g.text ++ segCatRepr g ++ "\x7d"

/-- `', '.join` of the segment dict reprs. -/
def joinSegs : List Segment → String
  | [] => ""
  | [g] => pyReprSegment g
  | g :: g2 :: rest => pyReprSegment g ++ ", " ++ joinSegs (g2 :: rest)

/-- `f'{list_of_segment_dicts}'`: Python `str` of a list. -/
def pyReprTexts (l : List Segment) : String :=
  "[" ++ joinSegs l ++ "]"

/-- `article_data_dict.get('title', '')`. -/
def strDefault : Option Val → String
  | some (Val.str s) => s
  | _ => ""

/-- `article_data_dict.get('abstract_texts', '')` as it prints in the
f-string. -/
def reprDefault : Option Val → String
  | some (Val.texts l) => pyReprTexts l
  | _ => ""

/-- The string handed to `_is_review_in_text`:
`f"{…get('title','')}\n{…get('abstract_texts','')}".strip()`. -/
def combinedText (t a : Option Val) : String :=
  (pyStripL ((strDefault t ++ "\n" ++ reprDefault a).toList)).asString

/-- `(s or raw MedlineDate)[:4]`. -/
def pyTake4 (s : String) : String := (s.toList.take 4).asString

/-- Lines 178–181: the `date` field.  The `try` block reads
`Journal/JournalIssue/PubDate/Year`; a missing element anywhere on that path
makes `.text` raise `AttributeError`, caught and answered by
`Journal/JournalIssue/PubDate/MedlineDate.text[:4]`, which itself raises
(uncaught) when the element is missing (`AttributeError`) or its text is
`None` (`TypeError` from `None[:4]`). -/
def dateField (articleEl : Elem) : Except PyErr Val :=
  match findPath articleEl ["Journal", "JournalIssue", "PubDate", "Year"] with
  | some yEl => Except.ok (valOfOptStr yEl.text)
  | Option.none =>
    match findPath articleEl ["Journal", "JournalIssue", "PubDate", "MedlineDate"] with
    | Option.none => Except.error PyErr.attributeError
    | some mEl =>
      match mEl.text with
      | Option.none => Except.error PyErr.typeError
      | some t => Except.ok (Val.str (pyTake4 t))

/-- Lines 185–190: the cleaned `ArticleTitle`, stored only when non-empty. -/
def titleStep (articleEl : Elem) (d : Record) : Record :=
  match find articleEl "ArticleTitle" with
  | Option.none => d
  | some t =>
    if (cleanText (tostring t)).isEmpty then d
    else dictSet d "title" (Val.str (cleanText (tostring t)))

/-- `PubMedXMLParser.source_name`. -/
def sourceName : String := "pubmed"

/-- Lines 164–168: `pmid` and the derived `id`
(`f"{cls.source_name}_{pmid}"`). -/
def basePmidDict (pmidEl : Elem) : Record :=
  dictSet (dictSet [] "pmid" (valOfOptStr pmidEl.text))
    "id" (Val.str (sourceName ++ "_" ++ pyStrOfOpt pmidEl.text))

/-- Lines 174–176: `abstract_texts`, stored only when non-empty. -/
def textsStep (articleEl : Elem) (d : Record) : Record :=
  if (getTexts articleEl).isEmpty then d
  else dictSet d "abstract_texts" (Val.texts (getTexts articleEl))

/-- Lines 199–203: `authors` stored only when non-empty, `collective_name`
only when not `None`. -/
def authorsStep (articleEl : Elem) (d : Record) : Record :=
  match (getAuthors articleEl).2 with
  | Option.none =>
    if (getAuthors articleEl).1.isEmpty then d
    else dictSet d "authors" (Val.authors (getAuthors articleEl).1)
  | some cn =>
    dictSet
      (if (getAuthors articleEl).1.isEmpty then d
       else dictSet d "authors" (Val.authors (getAuthors articleEl).1))
      "collective_name" (Val.str cn)

/-- The dict as assembled when the two final discard gates run (lines
162–193): `pmid`, `id`, optional `abstract_texts`, `date`, `journal_title`,
optional `title`. -/
def gateDict (pmidEl articleEl jt : Elem) (dv : Val) : Record :=
  titleStep articleEl
    (dictSet (dictSet (textsStep articleEl (basePmidDict pmidEl)) "date" dv)
      "journal_title" (valOfOptStr jt.text))

/-- `PubMedXMLParser._get_abstract_data_from_xml_el`: `Except.ok none`
models the discard gates (`return None`), `Except.error` the uncaught
exceptions. -/
def getAbstractData (pubmedArticleEl : Elem) : Except PyErr (Option Record) :=
  match find pubmedArticleEl "MedlineCitation" with
  | Option.none => Except.error PyErr.attributeError
  | some mc =>
    match find mc "PMID" with
    | Option.none => Except.ok Option.none
    | some pmidEl =>
      match isReview mc with
      | Except.error e => Except.error e
      | Except.ok true => Except.ok Option.none
      | Except.ok false =>
        match find mc "Article" with
        | Option.none => Except.error PyErr.attributeError
        | some articleEl =>
          match dateField articleEl with
          | Except.error e => Except.error e
          | Except.ok dv =>
            match findPath articleEl ["Journal", "Title"] with
            | Option.none => Except.error PyErr.attributeError
            | some jt =>
              if !(hasKey (gateDict pmidEl articleEl jt dv) "title"
                    || hasKey (gateDict pmidEl articleEl jt dv) "abstract_texts") then
                Except.ok Option.none
              else if isReviewInText
                  (combinedText (pyGet (gateDict pmidEl articleEl jt dv) "title")
                    (pyGet (gateDict pmidEl articleEl jt dv) "abstract_texts")) then
                Except.ok Option.none
              else
                match getDate mc "DateCompleted" with
                | Except.error e => Except.error e
                | Except.ok dc =>
                  match getDate mc "DateRevised" with
                  | Except.error e => Except.error e
                  | Except.ok dr =>
                    match getDate articleEl "ArticleDate" with
                    | Except.error e => Except.error e
                    | Except.ok da =>
                      Except.ok (some
                        (dictSet
                          (dictSet
                            (dictSet
                              (authorsStep articleEl (gateDict pmidEl articleEl jt dv))
                              "date_completed" (valOfOptDate dc))
                            "date_revised" (valOfOptDate dr))
                          "date_article" (valOfOptDate da)))

/-- The generator `parse_file` run to completion: the records yielded before
an uncaught exception (if any) terminates the iteration. -/
def parseFileAux : List Elem → List Record × Option PyErr
  | [] => ([], Option.none)
  | el :: rest =>
    match getAbstractData el with
    | Except.error e => ([], some e)
    | Except.ok Option.none => parseFileAux rest
    | Except.ok (some r) =>
      let t := parseFileAux rest
      (r :: t.1, t.2)

/-- `PubMedXMLParser.parse_file` on the parsed root element. -/
def parseFile (root : Elem) : List Record × Option PyErr :=
  parseFileAux (findall root "PubmedArticle")

/-! ### Concrete documents used by counterexamples and witnesses -/

/-- A `MedlineCitation` whose `DateCompleted` container is present but holds
no `Year` sub-element. -/
def mcDateNoYear : Elem :=
  Elem.mk "MedlineCitation" [] Option.none
    [Elem.mk "DateCompleted" [] Option.none [] Option.none] Option.none

/-- `<Year>2020</Year>` -/
def wYear : Elem := Elem.mk "Year" [] (some "2020") [] Option.none

/-- A well-formed `Article` element. -/
def wArt : Elem :=
  Elem.mk "Article" [] Option.none
    [ Elem.mk "Journal" [] Option.none
        [ Elem.mk "Title" [] (some "J Test") [] Option.none
        , Elem.mk "JournalIssue" [] Option.none
            [ Elem.mk "PubDate" [] Option.none [wYear] Option.none ] Option.none
        ] Option.none
    , Elem.mk "ArticleTitle" [] (some "Hello world") [] Option.none
    , Elem.mk "Abstract" [] Option.none
        [ Elem.mk "AbstractText" [("NlmCategory", "METHODS")] (some "Some text") []
            Option.none ] Option.none
    ] Option.none

def wMC : Elem :=
  Elem.mk "MedlineCitation" [] Option.none
    [ Elem.mk "PMID" [] (some "123") [] Option.none, wArt ] Option.none

def wArticle : Elem := Elem.mk "PubmedArticle" [] Option.none [wMC] Option.none

def wRoot : Elem := Elem.mk "PubmedArticleSet" [] Option.none [wArticle] Option.none

/-- The record `parse_file` emits for `wRoot`. -/
def wRec : Record :=
  [("pmid", Val.str "123"), ("id", Val.str "pubmed_123"),
   ("abstract_texts", Val.texts [⟨"Some text", some "METHODS"⟩]),
   ("date", Val.str "2020"), ("journal_title", Val.str "J Test"),
   ("title", Val.str "Hello world"),
   ("date_completed", Val.none), ("date_revised", Val.none),
   ("date_article", Val.none)]

/-- An entry tagged with publication type `Review`. -/
def wPtEl : Elem := Elem.mk "PublicationType" [] (some "Review") [] Option.none

def wPtl : Elem := Elem.mk "PublicationTypeList" [] Option.none [wPtEl] Option.none

def wArtRev : Elem := Elem.mk "Article" [] Option.none [wPtl] Option.none

def wMCRev : Elem :=
  Elem.mk "MedlineCitation" [] Option.none
    [ Elem.mk "PMID" [] (some "9") [] Option.none, wArtRev ] Option.none

def wArticleRev : Elem := Elem.mk "PubmedArticle" [] Option.none [wMCRev] Option.none

/-- An entry whose abstract contains the phrase "a systematic review of"
but carries no structural review signal. -/
def wArtSys : Elem :=
  Elem.mk "Article" [] Option.none
    [ Elem.mk "Journal" [] Option.none
        [ Elem.mk "Title" [] (some "J Sys") [] Option.none
        , Elem.mk "JournalIssue" [] Option.none
            [ Elem.mk "PubDate" [] Option.none
                [Elem.mk "Year" [] (some "2021") [] Option.none] Option.none ]
            Option.none
        ] Option.none
    , Elem.mk "Abstract" [] Option.none
        [ Elem.mk "AbstractText" [] (some "This is a systematic review of trials.") []
            Option.none ] Option.none ] Option.none

def wMCSys : Elem :=
  Elem.mk "MedlineCitation" [] Option.none
    [ Elem.mk "PMID" [] (some "5") [] Option.none, wArtSys ] Option.none

def wArticleSys : Elem := Elem.mk "PubmedArticle" [] Option.none [wMCSys] Option.none

/-! ## Lemmas -/

set_option maxRecDepth 16384

/-! ### Whitespace collapsing and stripping -/

/-- No two adjacent whitespace characters. -/
def noWW : List Char → Bool
  | c :: d :: r => (!(pyWs c && pyWs d)) && noWW (d :: r)
  | _ => true

/-! ## Theorems -/

set_option maxRecDepth 16384

theorem beginsWith_iff (pat l : List Char) :
    beginsWith pat l = true ↔ ∃ t, l = pat ++ t := by
  induction pat generalizing l with
  | nil => simp [beginsWith]
  | cons p ps ih =>
    cases l with
    | nil => simp [beginsWith]
    | cons c cs =>
      simp only [beginsWith, Bool.and_eq_true, decide_eq_true_eq, ih,
        List.cons_append, List.cons.injEq]
      constructor
      · rintro ⟨rfl, t, rfl⟩; exact ⟨t, rfl, rfl⟩
      · rintro ⟨t, rfl, rfl⟩; exact ⟨rfl, t, rfl⟩

theorem containsSub_iff (l pat : List Char) :
    containsSub l pat = true ↔ ∃ a b, l = a ++ pat ++ b := by
  induction l with
  | nil =>
    rw [containsSub]
    constructor
    · intro h
      split at h
      · rename_i hb
        rcases (beginsWith_iff pat []).1 hb with ⟨t, ht⟩
        exact ⟨[], t, by simpa using ht⟩
      · exact absurd h (by simp)
    · rintro ⟨a, b, hab⟩
      have hp : beginsWith pat [] = true := by
        rcases List.append_eq_nil.mp hab.symm with ⟨h1, h2⟩
        rcases List.append_eq_nil.mp h1 with ⟨_, hpat⟩
        subst hpat
        simp [beginsWith]
      simp [hp]
  | cons c cs ih =>
    rw [containsSub]
    split
    · rename_i hb
      rcases (beginsWith_iff pat (c :: cs)).1 hb with ⟨t, ht⟩
      simp only [true_iff]
      exact ⟨[], t, by simpa using ht⟩
    · rename_i hb
      rw [ih]
      constructor
      · rintro ⟨a, b, hab⟩
        exact ⟨c :: a, b, by simp [hab]⟩
      · rintro ⟨a, b, hab⟩
        cases a with
        | nil =>
          exfalso
          apply hb
          exact (beginsWith_iff pat (c :: cs)).2 ⟨b, by simpa using hab⟩
        | cons a0 a' =>
          simp only [List.cons_append, List.cons.injEq] at hab
          exact ⟨a', b, hab.2⟩

theorem matchA_length {l r : List Char} (h : matchA l = some r) :
    r.length < l.length := by
  unfold matchA at h
  cases l with
  | nil => exact absurd h (by simp)
  | cons c cs =>
    simp only at h
    split at h
    · rename_i hws
      have hd : (c :: cs).dropWhile pyWs = cs.dropWhile pyWs := by
        simp [List.dropWhile, hws]
      rw [hd] at h
      have hlen : (cs.dropWhile pyWs).length ≤ cs.length := (List.dropWhile_sublist _).length_le
      split at h
      · rename_i d e r' heq
        split at h
        · cases h
          have : (d :: e :: r).length ≤ cs.length := heq ▸ hlen
          simp only [List.length_cons] at this ⊢
          omega
        · exact absurd h (by simp)
      · exact absurd h (by simp)
    · exact absurd h (by simp)

theorem delimIterF_length (fuel : Nat) (l : List Char) :
    (delimIterF fuel l).length ≤ l.length := by
  induction fuel generalizing l with
  | zero => simp [delimIterF]
  | succ n ih =>
    rw [delimIterF]
    split
    · rename_i r h
      exact le_trans (ih r) (le_of_lt (matchA_length h))
    · exact le_rfl

theorem matchDelim_length {l r : List Char} (h : matchDelim l = some r) :
    r.length < l.length := by
  unfold matchDelim at h
  split at h
  · rename_i r0 h0
    cases h
    exact lt_of_le_of_lt (delimIterF_length _ _) (matchA_length h0)
  · exact absurd h (by simp)

theorem matchBrackets_length {l r : List Char} (h : matchBrackets l = some r) :
    r.length < l.length := by
  have haux : ∀ (open_ : Char) (rest : List Char),
      l.dropWhile pyWs = open_ :: rest →
      ∀ close r2, rest.dropWhile isBrClass = close :: r2 → r2.length < l.length := by
    intro o rest ho close r2 hc
    have h1 : (o :: rest).length ≤ l.length := ho ▸ (List.dropWhile_sublist _).length_le
    have h2 : (close :: r2).length ≤ rest.length := hc ▸ (List.dropWhile_sublist _).length_le
    simp only [List.length_cons] at h1 h2
    omega
  unfold matchBrackets at h
  simp only at h
  split at h
  · rename_i r0 hsome
    cases h
    split at hsome
    · rename_i r1 hdw
      split at hsome
      · rename_i r2 hbc
        cases hsome
        exact haux _ _ hdw _ _ hbc
      · exact absurd hsome (by simp)
    · exact absurd hsome (by simp)
  · split at h
    · rename_i c cs
      split at h
      · split at h
        · rename_i r1 hdw
          split at h
          · rename_i r2 hbc
            cases h
            exact haux _ _ hdw _ _ hbc
          · exact absurd h (by simp)
        · exact absurd h (by simp)
      · exact absurd h (by simp)
    · exact absurd h (by simp)

theorem decodeURF_irrel (f1 : Nat) : ∀ (f2 : Nat) (l : List Char),
    l.length < f1 → l.length < f2 → decodeURF f1 l = decodeURF f2 l := by
  induction f1 with
  | zero => intro f2 l h1 _; omega
  | succ f ih =>
    intro f2 l h1 h2
    match f2, l with
    | 0, l => omega
    | g + 1, [] => simp [decodeURF]
    | g + 1, c :: rest =>
      simp only [List.length_cons] at h1 h2
      simp only [decodeURF]
      split
      · split
        · rename_i repl n _
          have hd : (rest.drop n).length ≤ rest.length := by
            simp [List.length_drop]
          rw [ih g (rest.drop n) (by omega) (by omega)]
        · rw [ih g rest (by omega) (by omega)]
      · rw [ih g rest (by omega) (by omega)]

theorem decodeURF_eq (f : Nat) (l : List Char) (h : l.length < f) :
    decodeURF f l = decodeUR l :=
  decodeURF_irrel f (l.length + 1) l h (Nat.lt_succ_self _)

theorem decodeUR_cons_ne (c : Char) (t : List Char) (h : ¬ c = '&') :
    decodeUR (c :: t) = c :: decodeUR t := by
  simp [decodeUR, decodeURF, h]

theorem decodeUR_amp (rest : List Char) :
    decodeUR ('&' :: rest)
      = match scanRefDec rest with
        | some (repl, n) => repl ++ decodeUR (rest.drop n)
        | none => '&' :: decodeUR rest := by
  cases h : scanRefDec rest with
  | none => simp [decodeUR, decodeURF, h]
  | some pr =>
    obtain ⟨repl, n⟩ := pr
    simp only [decodeUR, List.length_cons, decodeURF, h, if_pos]
    rw [decodeURF_irrel (rest.length + 1) ((rest.drop n).length + 1) (rest.drop n)
      (by simp [List.length_drop]; omega) (Nat.lt_succ_self _)]

theorem takeWhile_all_append {p : Char → Bool} (ds : List Char) (x : Char) (s : List Char)
    (h : ∀ c ∈ ds, p c) (hx : p x = false) :
    ((ds ++ x :: s).takeWhile p = ds) ∧ ((ds ++ x :: s).dropWhile p = x :: s) := by
  induction ds with
  | nil => simp [List.takeWhile, List.dropWhile, hx]
  | cons d dt ih =>
    have hd : p d = true := h d (by simp)
    have iht := ih (fun c hc => h c (by simp [hc]))
    simp [List.takeWhile, List.dropWhile, hd, iht.1, iht.2]

theorem pyWs_not_digit {c : Char} (h : pyWs c = true) : c.isDigit = false := by
  simp only [pyWs, Bool.or_eq_true, decide_eq_true_eq] at h
  rcases h with ((((h | h) | h) | h) | h) | h <;> subst h <;> decide

theorem scanRefDec_semi (ds suf : List Char) (hds : ds ≠ [])
    (hdig : ∀ c ∈ ds, c.isDigit = true) :
    scanRefDec ('#' :: (ds ++ (';' :: suf))) = some (pyChrRepl ds, ds.length + 2) := by
  have h := takeWhile_all_append (p := Char.isDigit) ds ';' suf hdig (by decide)
  cases ds with
  | nil => exact absurd rfl hds
  | cons d dt =>
    simp only [scanRefDec, h.1]
    have hdrop : ((d :: dt) ++ (';' :: suf)).drop (d :: dt).length = ';' :: suf :=
      List.drop_left _ _
    rw [hdrop]
    rfl

theorem scanRefDec_wsLookahead (ds suf : List Char) (w : Char) (hds : ds ≠ [])
    (hdig : ∀ c ∈ ds, c.isDigit = true) (hw : pyWs w = true) (hw' : ¬ w = ';') :
    scanRefDec ('#' :: (ds ++ (w :: suf))) = some (pyChrRepl ds, ds.length + 1) := by
  have h := takeWhile_all_append (p := Char.isDigit) ds w suf hdig (pyWs_not_digit hw)
  cases ds with
  | nil => exact absurd rfl hds
  | cons d dt =>
    simp only [scanRefDec, h.1]
    have hdrop : ((d :: dt) ++ (w :: suf)).drop (d :: dt).length = w :: suf :=
      List.drop_left _ _
    rw [hdrop]
    simp [hw, hw']

theorem drop_marker_semi (ds suf : List Char) :
    ('#' :: (ds ++ (';' :: suf))).drop (ds.length + 2) = suf := by
  have : ('#' :: (ds ++ (';' :: suf))) = (('#' :: ds) ++ [';']) ++ suf := by simp
  rw [this]
  have hlen : (('#' :: ds) ++ [';']).length = ds.length + 2 := by simp
  rw [← hlen, List.drop_left]

theorem drop_marker_ws (ds suf : List Char) (w : Char) :
    ('#' :: (ds ++ (w :: suf))).drop (ds.length + 1) = w :: suf := by
  have : ('#' :: (ds ++ (w :: suf))) = ('#' :: ds) ++ (w :: suf) := by simp
  rw [this]
  have hlen : ('#' :: ds).length = ds.length + 1 := by simp
  rw [← hlen, List.drop_left]

theorem pyChrRepl_valid {ds : List Char} (h : (natOfDigits ds).isValidChar) :
    pyChrRepl ds = [Char.ofNat (natOfDigits ds)] := by
  simp [pyChrRepl, pyChr, h]

theorem pyChrRepl_overflow {ds : List Char} (h : natOfDigits ds > 0x10FFFF) :
    pyChrRepl ds = ds := by
  have hnv : ¬ (natOfDigits ds).isValidChar := by
    intro hv
    rcases hv with hv | hv <;> omega
  simp [pyChrRepl, pyChr, hnv]

/-- **C9.** `_decode_unicode_references` replaces each numeric character
reference `&#NNN;` (and `&#NNN` followed by whitespace, the whitespace kept)
by `chr(NNN)` when that conversion succeeds, and keeps the reference's digit
text when `chr` raises (NNN above 0x10FFFF); the surrounding text is
untouched and no exception escapes (the callback catches everything, which
the total model reflects). -/
theorem C9_decode_unicode_references (pre ds suf : List Char)
    (hpre : ∀ c ∈ pre, ¬ c = '&') (hds : ds ≠ [])
    (hdig : ∀ c ∈ ds, c.isDigit = true) :
    ((natOfDigits ds).isValidChar →
      decodeUR (pre ++ ('&' :: '#' :: (ds ++ (';' :: suf))))
        = pre ++ (Char.ofNat (natOfDigits ds) :: decodeUR suf))
    ∧ (natOfDigits ds > 0x10FFFF →
      decodeUR (pre ++ ('&' :: '#' :: (ds ++ (';' :: suf))))
        = pre ++ (ds ++ decodeUR suf))
    ∧ (∀ w, pyWs w = true → ¬ w = ';' → (natOfDigits ds).isValidChar →
      decodeUR (pre ++ ('&' :: '#' :: (ds ++ (w :: suf))))
        = pre ++ (Char.ofNat (natOfDigits ds) :: decodeUR (w :: suf))) := by
  induction pre with
  | nil =>
    refine ⟨?_, ?_, ?_⟩
    · intro hv
      rw [List.nil_append, decodeUR_amp, scanRefDec_semi ds suf hds hdig]
      simp only [drop_marker_semi, pyChrRepl_valid hv, List.nil_append,
        List.cons_append, List.nil_append]
    · intro hover
      rw [List.nil_append, decodeUR_amp, scanRefDec_semi ds suf hds hdig]
      simp only [drop_marker_semi, pyChrRepl_overflow hover, List.nil_append]
    · intro w hw hw' hv
      rw [List.nil_append, decodeUR_amp, scanRefDec_wsLookahead ds suf w hds hdig hw hw']
      simp only [drop_marker_ws, pyChrRepl_valid hv, List.nil_append,
        List.cons_append, List.nil_append]
  | cons c pre' ih =>
    have hc : ¬ c = '&' := hpre c (by simp)
    have ih' := ih (fun x hx => hpre x (by simp [hx]))
    refine ⟨?_, ?_, ?_⟩
    · intro hv
      rw [List.cons_append, decodeUR_cons_ne c _ hc, ih'.1 hv, List.cons_append]
    · intro hover
      rw [List.cons_append, decodeUR_cons_ne c _ hc, ih'.2.1 hover, List.cons_append]
    · intro w hw hw' hv
      rw [List.cons_append, decodeUR_cons_ne c _ hc, ih'.2.2 w hw hw' hv, List.cons_append]

/-- Witness for C9 at `"A&#66;C"`: the reference decodes to `B`. -/
theorem C9_witness :
    decodeUR (['A'] ++ ('&' :: '#' :: (['6', '6'] ++ (';' :: ['C']))))
      = ['A'] ++ (Char.ofNat (natOfDigits ['6', '6']) :: decodeUR ['C']) :=
  (C9_decode_unicode_references ['A'] ['6', '6'] ['C'] (by decide) (by decide)
    (by decide)).1 (by decide)

/-- **C2 counterexample.** Cleaning the spec's example string does not yield
`"Background: values were -2elevated."`: the bracketed citation `[12]` is
kept, because `_empty_brackets_re` only removes bracket groups whose
interior consists of whitespace and separator punctuation, and `12` is
neither. -/
theorem C2_counterexample :
    cleanText "<i>Background</i>: values were <sup>2</sup>elevated [12]."
      ≠ "Background: values were -2elevated." := by decide

/-- **C2 (amended).** Cleaning
`"<i>Background</i>: values were <sup>2</sup>elevated [12]."` yields
`"Background: values were -2elevated [12]."`: the `<i>` tag is stripped, the
superscript becomes its hyphen-prefixed text, spacing is normalised, and the
non-empty bracket group `[12]` is kept. -/
theorem C2_clean_concrete :
    cleanText "<i>Background</i>: values were <sup>2</sup>elevated [12]."
      = "Background: values were -2elevated [12]." := by decide

/-- **C3 counterexample.** With the date container present but its `Year`
sub-element absent, `_get_date` raises `AttributeError` (from `None.text`)
instead of returning `None`. -/
theorem C3_counterexample :
    getDate mcDateNoYear "DateCompleted" = Except.error PyErr.attributeError := by rfl

/-- **C3 (amended).** `_get_date` returns `None` without error when the
container element is absent; when the container is present but its `Year`,
`Month` or `Day` sub-element is absent, it raises `AttributeError`. -/
theorem C3_get_date_absence (el : Elem) (key : String) :
    (find el key = Option.none → getDate el key = Except.ok Option.none)
    ∧ (∀ dEl, find el key = some dEl →
        (find dEl "Year" = Option.none →
          getDate el key = Except.error PyErr.attributeError)
        ∧ (∀ yEl, find dEl "Year" = some yEl → find dEl "Month" = Option.none →
          getDate el key = Except.error PyErr.attributeError)
        ∧ (∀ yEl mEl, find dEl "Year" = some yEl → find dEl "Month" = some mEl →
          find dEl "Day" = Option.none →
          getDate el key = Except.error PyErr.attributeError)) := by
  constructor
  · intro h
    simp [getDate, h]
  · intro dEl hd
    refine ⟨?_, ?_, ?_⟩
    · intro hy
      simp [getDate, hd, hy]
    · intro yEl hy hm
      simp [getDate, hd, hy, hm]
    · intro yEl mEl hy hm hday
      simp [getDate, hd, hy, hm, hday]

/-- Witness for C3 (amended): an element with no `DateCompleted` child gives
`ok None`; `mcDateNoYear` (container present, `Year` absent) raises. -/
theorem C3_witness :
    getDate (Elem.mk "MedlineCitation" [] Option.none [] Option.none) "DateCompleted"
        = Except.ok Option.none
    ∧ getDate mcDateNoYear "DateCompleted" = Except.error PyErr.attributeError :=
  ⟨(C3_get_date_absence (Elem.mk "MedlineCitation" [] Option.none [] Option.none)
      "DateCompleted").1 rfl,
   ((C3_get_date_absence mcDateNoYear "DateCompleted").2
      (Elem.mk "DateCompleted" [] Option.none [] Option.none) rfl).1 rfl⟩

/-! ### The cleaning pipeline on markup-free text -/

theorem tokenizeF_plain : ∀ (f : Nat) (l : List Char), l.length < f →
    (∀ c ∈ l, ¬ c = '<' ∧ ¬ c = '&') → tokenizeF f l = l.map Tok.ch := by
  intro f
  induction f with
  | zero => intro l h _; omega
  | succ g ih =>
    intro l h hp
    cases l with
    | nil => simp [tokenizeF]
    | cons c rest =>
      have hc := hp c (by simp)
      simp only [List.length_cons] at h
      simp only [tokenizeF, if_neg hc.1, if_neg hc.2, List.map_cons]
      rw [ih rest (by omega) (fun x hx => hp x (by simp [hx]))]

theorem parseNodes_chs : ∀ (l : List Char) (f : Nat) (anc : List String),
    l.length ≤ f → parseNodes f (l.map Tok.ch) anc = (l.map Node.text, []) := by
  intro l
  induction l with
  | nil =>
    intro f anc _
    cases f <;> simp [parseNodes]
  | cons c rest ih =>
    intro f anc h
    cases f with
    | zero => simp at h
    | succ g =>
      simp only [List.length_cons] at h
      simp only [List.map_cons, parseNodes, ih g anc (by omega)]

theorem removeTaggedF_texts (names : List String) :
    ∀ (l : List Char) (f : Nat), l.length < f →
    removeTaggedF names f (l.map Node.text) = l.map Node.text := by
  intro l
  induction l with
  | nil =>
    intro f h
    cases f with
    | zero => omega
    | succ g => simp [removeTaggedF]
  | cons c rest ih =>
    intro f h
    cases f with
    | zero => omega
    | succ g =>
      simp only [List.length_cons] at h
      simp only [List.map_cons, removeTaggedF, ih g (by omega)]

theorem replaceSubSupF_texts :
    ∀ (l : List Char) (f : Nat), l.length < f →
    replaceSubSupF f (l.map Node.text) = l.map Node.text := by
  intro l
  induction l with
  | nil =>
    intro f h
    cases f with
    | zero => omega
    | succ g => simp [replaceSubSupF]
  | cons c rest ih =>
    intro f h
    cases f with
    | zero => omega
    | succ g =>
      simp only [List.length_cons] at h
      simp only [List.map_cons, replaceSubSupF, ih g (by omega)]

theorem textOfForestF_texts :
    ∀ (l : List Char) (f : Nat), l.length < f →
    textOfForestF f (l.map Node.text) = l := by
  intro l
  induction l with
  | nil =>
    intro f h
    cases f with
    | zero => omega
    | succ g => simp [textOfForestF]
  | cons c rest ih =>
    intro f h
    cases f with
    | zero => omega
    | succ g =>
      simp only [List.length_cons] at h
      simp only [List.map_cons, textOfForestF, ih g (by omega)]

/-- On text with no `<` and no `&`, the BeautifulSoup pass is the
identity. -/
theorem bsGetText_plain (l : List Char)
    (hp : ∀ c ∈ l, ¬ c = '<' ∧ ¬ c = '&') : bsGetText l = l := by
  have htok : tokenize l = l.map Tok.ch :=
    tokenizeF_plain (l.length + 1) l (Nat.lt_succ_self _) hp
  have hlen : (l.map Tok.ch).length = l.length := by simp
  simp only [bsGetText, htok, hlen, parseForest]
  rw [parseNodes_chs l l.length [] (le_refl _)]
  rw [removeTaggedF_texts _ l _ (by omega), replaceSubSupF_texts l _ (by omega),
    textOfForestF_texts l _ (by omega)]

/-- On text with no `&`, `_decode_unicode_references` is the identity. -/
theorem decodeURF_noamp : ∀ (f : Nat) (l : List Char), l.length < f →
    (∀ c ∈ l, ¬ c = '&') → decodeURF f l = l := by
  intro f
  induction f with
  | zero => intro l h _; omega
  | succ g ih =>
    intro l h hp
    cases l with
    | nil => simp [decodeURF]
    | cons c rest =>
      simp only [List.length_cons] at h
      simp only [decodeURF, if_neg (hp c (by simp))]
      rw [ih rest (by omega) (fun x hx => hp x (by simp [hx]))]

theorem decodeUR_noamp (l : List Char) (hp : ∀ c ∈ l, ¬ c = '&') :
    decodeUR l = l :=
  decodeURF_noamp (l.length + 1) l (Nat.lt_succ_self _) hp

theorem noWW_cons {c : Char} {l : List Char} (h : noWW (c :: l) = true) :
    noWW l = true := by
  cases l with
  | nil => rfl
  | cons d r => exact (Bool.and_eq_true_iff.mp h).2

theorem noWW_cons_of_nonws {c : Char} {l : List Char} (hc : pyWs c = false)
    (h : noWW l = true) : noWW (c :: l) = true := by
  cases l with
  | nil => rfl
  | cons d r => simp [noWW, hc, h]

theorem noWW_cons_of_head {c : Char} {l : List Char}
    (hh : ∀ d t, l = d :: t → pyWs d = false)
    (h : noWW l = true) : noWW (c :: l) = true := by
  cases l with
  | nil => rfl
  | cons d r => simp [noWW, hh d r rfl, h]

theorem wsCollapseF_nil (f : Nat) : wsCollapseF f [] = [] := by
  cases f <;> rfl

theorem wsCollapseF_head (f : Nat) (d : Char) (rt : List Char) (hd : pyWs d = false) :
    wsCollapseF f (d :: rt) = [] ∨ ∃ t, wsCollapseF f (d :: rt) = d :: t := by
  cases f with
  | zero => exact Or.inl rfl
  | succ g =>
    right
    simp only [wsCollapseF, hd]
    exact ⟨_, rfl⟩

theorem dropWhile_head_not (p : Char → Bool) (l : List Char) :
    ∀ d t, l.dropWhile p = d :: t → p d = false := by
  induction l with
  | nil => intro d t h; simp [List.dropWhile] at h
  | cons c r ih =>
    intro d t h
    rw [List.dropWhile_cons] at h
    split at h
    · exact ih d t h
    · rename_i hc
      cases h
      exact Bool.not_eq_true _ ▸ (by simpa using hc)

theorem wsCollapseF_noWW : ∀ (f : Nat) (l : List Char), l.length < f →
    noWW (wsCollapseF f l) = true := by
  intro f
  induction f with
  | zero => intro l h; omega
  | succ g ih =>
    intro l h
    cases l with
    | nil => simp [wsCollapseF, noWW]
    | cons c rest =>
      have hlc : (c :: rest).length = rest.length + 1 := List.length_cons _ _
      by_cases hc : pyWs c = true
      · cases rest with
        | nil => simp [wsCollapseF, hc, noWW]
        | cons d rt =>
          have hld : (d :: rt).length = rt.length + 1 := List.length_cons _ _
          by_cases hdws : pyWs d = true
          · have hdd : (d :: rt).dropWhile pyWs = rt.dropWhile pyWs := by
              simp [List.dropWhile_cons, hdws]
            have hlen : (rt.dropWhile pyWs).length < g :=
              lt_of_le_of_lt (List.Sublist.length_le (List.dropWhile_sublist _)) (by omega)
            simp only [wsCollapseF, hc, hdws, if_pos, hdd]
            apply noWW_cons_of_head _ (ih (rt.dropWhile pyWs) hlen)
            intro e t het
            cases hdrop : rt.dropWhile pyWs with
            | nil => rw [hdrop, wsCollapseF_nil] at het; cases het
            | cons e0 t0 =>
              have he0 : pyWs e0 = false := dropWhile_head_not pyWs rt e0 t0 hdrop
              rw [hdrop] at het
              rcases wsCollapseF_head g e0 t0 he0 with hnil | ⟨t', ht'⟩
              · rw [hnil] at het; cases het
              · rw [ht'] at het; cases het; exact he0
          · have hdf : pyWs d = false := by simpa using hdws
            simp only [wsCollapseF, hc, if_pos, hdf]
            rw [if_neg (by simp)]
            apply noWW_cons_of_head _ (ih (d :: rt) (by omega))
            intro e t het
            rcases wsCollapseF_head g d rt hdf with hnil | ⟨t', ht'⟩
            · rw [hnil] at het; cases het
            · rw [ht'] at het; cases het; exact hdf
      · have hcf : pyWs c = false := by simpa using hc
        have hni := ih rest (by omega)
        simp only [wsCollapseF, hcf]
        rw [if_neg (by simp)]
        exact noWW_cons_of_nonws hcf hni

theorem wsCollapseF_id : ∀ (f : Nat) (l : List Char), l.length < f →
    noWW l = true → wsCollapseF f l = l := by
  intro f
  induction f with
  | zero => intro l h _; omega
  | succ g ih =>
    intro l h hno
    cases l with
    | nil => rfl
    | cons c rest =>
      have hlc : (c :: rest).length = rest.length + 1 := List.length_cons _ _
      cases rest with
      | nil =>
        by_cases hc : pyWs c = true
        · simp [wsCollapseF, hc]
        · simp [wsCollapseF, hc, wsCollapseF_nil]
      | cons d rt =>
        have hld : (d :: rt).length = rt.length + 1 := List.length_cons _ _
        have hrest := noWW_cons hno
        have hih := ih (d :: rt) (by omega) hrest
        by_cases hc : pyWs c = true
        · have hd : pyWs d = false := by
            have h2 := (Bool.and_eq_true_iff.mp hno).1
            cases hpd : pyWs d
            · rfl
            · rw [hc, hpd] at h2; simp at h2
          simp only [wsCollapseF, hc, if_pos, hd]
          rw [if_neg (by simp), hih]
        · have hcf : pyWs c = false := by simpa using hc
          simp only [wsCollapseF, hcf]
          rw [if_neg (by simp), hih]

theorem wsCollapse_noWW (l : List Char) : noWW (wsCollapse l) = true :=
  wsCollapseF_noWW (l.length + 1) l (Nat.lt_succ_self _)

theorem wsCollapse_id (l : List Char) (h : noWW l = true) : wsCollapse l = l :=
  wsCollapseF_id (l.length + 1) l (Nat.lt_succ_self _) h

theorem noWW_append_left : ∀ (a x : List Char), noWW (a ++ x) = true → noWW x = true := by
  intro a
  induction a with
  | nil => intro x h; simpa using h
  | cons c a' ih => intro x h; exact ih x (noWW_cons (by simpa using h))

theorem noWW_append_right : ∀ (x b : List Char), noWW (x ++ b) = true → noWW x = true := by
  intro x
  induction x with
  | nil => intro b _; rfl
  | cons c x' ih =>
    intro b h
    cases x' with
    | nil => rfl
    | cons d r =>
      have h' : noWW (c :: d :: (r ++ b)) = true := by simpa using h
      have hcd := (Bool.and_eq_true_iff.mp h').1
      have := ih b (noWW_cons (by simpa using h))
      simp [noWW, this]
      simpa using hcd

theorem pyStripL_decomp (l : List Char) : ∃ a b, l = a ++ pyStripL l ++ b := by
  refine ⟨l.takeWhile pyWs, ((l.dropWhile pyWs).reverse.takeWhile pyWs).reverse, ?_⟩
  have h3 : l.dropWhile pyWs
      = pyStripL l ++ ((l.dropWhile pyWs).reverse.takeWhile pyWs).reverse := by
    unfold pyStripL
    calc l.dropWhile pyWs = (l.dropWhile pyWs).reverse.reverse := by rw [List.reverse_reverse]
    _ = ((l.dropWhile pyWs).reverse.takeWhile pyWs
          ++ (l.dropWhile pyWs).reverse.dropWhile pyWs).reverse := by
        rw [List.takeWhile_append_dropWhile]
    _ = ((l.dropWhile pyWs).reverse.dropWhile pyWs).reverse
          ++ ((l.dropWhile pyWs).reverse.takeWhile pyWs).reverse := by
        rw [List.reverse_append]
  calc l = l.takeWhile pyWs ++ l.dropWhile pyWs := by rw [List.takeWhile_append_dropWhile]
  _ = l.takeWhile pyWs
        ++ (pyStripL l ++ ((l.dropWhile pyWs).reverse.takeWhile pyWs).reverse) := by rw [← h3]
  _ = l.takeWhile pyWs ++ pyStripL l
        ++ ((l.dropWhile pyWs).reverse.takeWhile pyWs).reverse := by rw [List.append_assoc]

theorem noWW_pyStripL (l : List Char) (h : noWW l = true) :
    noWW (pyStripL l) = true := by
  rcases pyStripL_decomp l with ⟨a, b, hl⟩
  rw [hl] at h
  exact noWW_append_right _ _ (noWW_append_left _ _ (by rwa [List.append_assoc] at h))

theorem dropWhile_append_last (p : Char → Bool) (x : Char) (hx : p x = false) :
    ∀ a : List Char, (a ++ [x]).dropWhile p = a.dropWhile p ++ [x] := by
  intro a
  induction a with
  | nil => simp [List.dropWhile, hx]
  | cons c a' ih =>
    by_cases hc : p c = true
    · simp [List.dropWhile_cons, hc, ih]
    · simp [List.dropWhile_cons, hc]

theorem dropWhile_dropWhile (p : Char → Bool) (l : List Char) :
    (l.dropWhile p).dropWhile p = l.dropWhile p := by
  cases h : l.dropWhile p with
  | nil => rfl
  | cons e t =>
    have he := dropWhile_head_not p l e t h
    simp [List.dropWhile_cons, he]

theorem pyStripL_idem (l : List Char) : pyStripL (pyStripL l) = pyStripL l := by
  cases ht : l.dropWhile pyWs with
  | nil => simp [pyStripL, ht]
  | cons h0 t0 =>
    have hh0 : pyWs h0 = false := dropWhile_head_not pyWs l h0 t0 ht
    have hy : pyStripL l = h0 :: (t0.reverse.dropWhile pyWs).reverse := by
      unfold pyStripL
      rw [ht, List.reverse_cons, dropWhile_append_last pyWs h0 hh0 t0.reverse,
        List.reverse_append]
      simp
    rw [hy]
    unfold pyStripL
    rw [List.dropWhile_cons, if_neg (by simp [hh0]), List.reverse_cons,
      List.reverse_reverse, dropWhile_append_last pyWs h0 hh0,
      dropWhile_dropWhile, List.reverse_append]
    simp

/-- **C4 counterexample.** `clean` is not idempotent: on `"a - - b"` the
first pass collapses only the first whitespace-wrapped delimiter run (the
regex scan resumes after the replacement), leaving `"a - b"`, which a second
pass reduces further to `"a b"`. -/
theorem C4_counterexample :
    cleanText (cleanText "a - - b") ≠ cleanText "a - - b" := by decide

/-- **C4 (amended).** `clean(clean(x)) = clean(x)` for every `x` whose
cleaned form contains no tag delimiter `<` and no `&`, and on which the
bracket-removal and delimiter-collapsing passes act as the identity (no
removable bracket group and no whitespace-wrapped delimiter run left).
Without these conditions idempotence fails (see the counterexample). -/
theorem C4_clean_conditional_idempotence (x : String)
    (h1 : ∀ c ∈ (cleanText x).toList, ¬ c = '<' ∧ ¬ c = '&')
    (h2 : bracketsSub (cleanText x).toList = (cleanText x).toList)
    (h3 : delimSub (cleanText x).toList = (cleanText x).toList) :
    cleanText (cleanText x) = cleanText x := by
  have hyz : (cleanText x).toList
      = pyStripL (wsCollapse (delimSub (bracketsSub (decodeUR (bsGetText x.toList))))) := rfl
  have hbs : bsGetText (cleanText x).toList = (cleanText x).toList :=
    bsGetText_plain _ h1
  have hdec : decodeUR (cleanText x).toList = (cleanText x).toList :=
    decodeUR_noamp _ (fun c hc => (h1 c hc).2)
  have hno : noWW (cleanText x).toList = true := by
    rw [hyz]; exact noWW_pyStripL _ (wsCollapse_noWW _)
  have hws : wsCollapse (cleanText x).toList = (cleanText x).toList :=
    wsCollapse_id _ hno
  have hstr : pyStripL (cleanText x).toList = (cleanText x).toList := by
    rw [hyz]; exact pyStripL_idem _
  show (cleanTextL (cleanText x).toList).asString = cleanText x
  unfold cleanTextL
  rw [hbs, hdec, h2, h3, hws, hstr]
  rfl

/-- Witness for C4 (amended) at `"hello  world"`. -/
theorem C4_witness :
    cleanText (cleanText "hello  world") = cleanText "hello  world" :=
  C4_clean_conditional_idempotence "hello  world" (by decide) (by decide) (by decide)

/-! ### Characters never introduced by the regex passes -/

theorem matchBrackets_mem {l r : List Char} (h : matchBrackets l = some r) :
    ∀ c ∈ r, c ∈ l := by
  have haux : ∀ (o : Char) (rest : List Char),
      l.dropWhile pyWs = o :: rest →
      ∀ (cl : Char) r2, rest.dropWhile isBrClass = cl :: r2 → ∀ c ∈ r2, c ∈ l := by
    intro o rest ho cl r2 hc c hcr
    have h1 : c ∈ rest := by
      have : c ∈ rest.dropWhile isBrClass := by rw [hc]; exact List.mem_cons_of_mem _ hcr
      exact (List.dropWhile_sublist _).subset this
    have h2 : c ∈ l.dropWhile pyWs := by rw [ho]; exact List.mem_cons_of_mem _ h1
    exact (List.dropWhile_sublist _).subset h2
  unfold matchBrackets at h
  simp only at h
  split at h
  · rename_i r0 hsome
    cases h
    split at hsome
    · rename_i r1 hdw
      split at hsome
      · rename_i r2 hbc
        cases hsome
        exact haux _ _ hdw _ _ hbc
      · exact absurd hsome (by simp)
    · exact absurd hsome (by simp)
  · split at h
    · rename_i c0 cs
      split at h
      · split at h
        · rename_i r1 hdw
          split at h
          · rename_i r2 hbc
            cases h
            exact haux _ _ hdw _ _ hbc
          · exact absurd h (by simp)
        · exact absurd h (by simp)
      · exact absurd h (by simp)
    · exact absurd h (by simp)

theorem matchA_mem {l r : List Char} (h : matchA l = some r) : ∀ c ∈ r, c ∈ l := by
  unfold matchA at h
  cases l with
  | nil => exact absurd h (by simp)
  | cons c0 cs =>
    simp only at h
    split at h
    · split at h
      · rename_i d e r' heq
        split at h
        · cases h
          intro c hc
          have h1 : c ∈ (c0 :: cs).dropWhile pyWs := by
            rw [heq]; exact List.mem_cons_of_mem _ (List.mem_cons_of_mem _ hc)
          exact (List.dropWhile_sublist _).subset h1
        · exact absurd h (by simp)
      · exact absurd h (by simp)
    · exact absurd h (by simp)

theorem delimIterF_mem : ∀ (f : Nat) (l : List Char), ∀ c ∈ delimIterF f l, c ∈ l := by
  intro f
  induction f with
  | zero => intro l c hc; simpa [delimIterF] using hc
  | succ g ih =>
    intro l c hc
    rw [delimIterF] at hc
    split at hc
    · rename_i r h
      exact matchA_mem h c (ih r c hc)
    · exact hc

theorem matchDelim_mem {l r : List Char} (h : matchDelim l = some r) :
    ∀ c ∈ r, c ∈ l := by
  unfold matchDelim at h
  split at h
  · rename_i r0 h0
    cases h
    intro c hc
    exact matchA_mem h0 c (delimIterF_mem _ _ c hc)
  · exact absurd h (by simp)

theorem bracketsSubF_mem : ∀ (f : Nat) (l : List Char), ∀ c ∈ bracketsSubF f l, c ∈ l := by
  intro f
  induction f with
  | zero => intro l c hc; simp [bracketsSubF] at hc
  | succ g ih =>
    intro l c hc
    cases l with
    | nil => simp [bracketsSubF] at hc
    | cons c0 rest =>
      rw [bracketsSubF] at hc
      split at hc
      · rename_i r h
        exact matchBrackets_mem h c (ih r c hc)
      · rcases List.mem_cons.mp hc with rfl | hc'
        · exact List.mem_cons_self _ _
        · exact List.mem_cons_of_mem _ (ih rest c hc')

theorem delimSubF_mem : ∀ (f : Nat) (l : List Char), ∀ c ∈ delimSubF f l,
    c ∈ l ∨ c = ' ' := by
  intro f
  induction f with
  | zero => intro l c hc; simp [delimSubF] at hc
  | succ g ih =>
    intro l c hc
    cases l with
    | nil => simp [delimSubF] at hc
    | cons c0 rest =>
      rw [delimSubF] at hc
      split at hc
      · rename_i r h
        rcases List.mem_cons.mp hc with rfl | hc'
        · exact Or.inr rfl
        · rcases ih r c hc' with hmem | hsp
          · exact Or.inl (matchDelim_mem h c hmem)
          · exact Or.inr hsp
      · rcases List.mem_cons.mp hc with rfl | hc'
        · exact Or.inl (List.mem_cons_self _ _)
        · rcases ih rest c hc' with hmem | hsp
          · exact Or.inl (List.mem_cons_of_mem _ hmem)
          · exact Or.inr hsp

theorem wsCollapseF_mem : ∀ (f : Nat) (l : List Char), ∀ c ∈ wsCollapseF f l,
    c ∈ l ∨ c = ' ' := by
  intro f
  induction f with
  | zero => intro l c hc; simp [wsCollapseF] at hc
  | succ g ih =>
    intro l c hc
    cases l with
    | nil => simp [wsCollapseF] at hc
    | cons c0 rest =>
      cases rest with
      | nil =>
        simp only [wsCollapseF] at hc
        split at hc
        · rcases List.mem_cons.mp hc with rfl | hc'
          · exact Or.inl (List.mem_cons_self _ _)
          · simp at hc'
        · rcases List.mem_cons.mp hc with rfl | hc'
          · exact Or.inl (List.mem_cons_self _ _)
          · rw [wsCollapseF_nil] at hc'; simp at hc'
      | cons d rt =>
        simp only [wsCollapseF] at hc
        split at hc
        · split at hc
          · rcases List.mem_cons.mp hc with rfl | hc'
            · exact Or.inr rfl
            · rcases ih _ c hc' with hmem | hsp
              · exact Or.inl (List.mem_cons_of_mem _
                  ((List.dropWhile_sublist _).subset hmem))
              · exact Or.inr hsp
          · rcases List.mem_cons.mp hc with rfl | hc'
            · exact Or.inl (List.mem_cons_self _ _)
            · rcases ih _ c hc' with hmem | hsp
              · exact Or.inl (List.mem_cons_of_mem _ hmem)
              · exact Or.inr hsp
        · rcases List.mem_cons.mp hc with rfl | hc'
          · exact Or.inl (List.mem_cons_self _ _)
          · rcases ih _ c hc' with hmem | hsp
            · exact Or.inl (List.mem_cons_of_mem _ hmem)
            · exact Or.inr hsp

theorem pyStripL_mem (l : List Char) : ∀ c ∈ pyStripL l, c ∈ l := by
  intro c hc
  unfold pyStripL at hc
  rw [List.mem_reverse] at hc
  have h1 := (List.dropWhile_sublist _).subset hc
  rw [List.mem_reverse] at h1
  exact (List.dropWhile_sublist _).subset h1

/-- **C5 counterexample.** `clean("a < b")` contains the tag delimiter `<`:
html.parser treats a `<` not followed by a tag-opening character as
character data, and no later pass removes it. -/
theorem C5_counterexample : '<' ∈ (cleanText "a < b").toList := by decide

/-- **C5 (amended).** For inputs containing no `<`, `>` or `&`, the cleaned
output contains none of these characters either (the passes only delete
characters or insert spaces); in particular it has no tag delimiters and no
numeric character reference syntax.  The unrestricted claim fails (see the
counterexample). -/
theorem C5_clean_output_charset (x : String)
    (hx : ∀ c ∈ x.toList, ¬ c = '<' ∧ ¬ c = '>' ∧ ¬ c = '&') :
    ∀ c ∈ (cleanText x).toList, ¬ c = '<' ∧ ¬ c = '>' ∧ ¬ c = '&' := by
  intro c hc
  have hc' : c ∈ cleanTextL x.toList := hc
  unfold cleanTextL at hc'
  rw [bsGetText_plain _ (fun d hd => ⟨(hx d hd).1, (hx d hd).2.2⟩),
    decodeUR_noamp _ (fun d hd => (hx d hd).2.2)] at hc'
  have s1 := pyStripL_mem _ c hc'
  rcases wsCollapseF_mem _ _ c s1 with s2 | hsp
  · rcases delimSubF_mem _ _ c s2 with s3 | hsp
    · exact hx c (bracketsSubF_mem _ _ c s3)
    · subst hsp; exact ⟨by decide, by decide, by decide⟩
  · subst hsp; exact ⟨by decide, by decide, by decide⟩

/-- Witness for C5 (amended) at `"ab  cd [ ] e"`, instantiated at the
character `a` of the cleaned output. -/
theorem C5_witness :
    'a' ∈ (cleanText "ab  cd [ ] e").toList
    ∧ (¬ 'a' = '<' ∧ ¬ 'a' = '>' ∧ ¬ 'a' = '&') :=
  ⟨by decide, C5_clean_output_charset "ab  cd [ ] e" (by decide) 'a' (by decide)⟩

/-! ### Dictionary lemmas -/

theorem pyGet_map_set_ne {α : Type} (d : List (String × α)) (k k' : String) (v : α)
    (h : ¬ k' = k) :
    pyGet (d.map (fun q => if q.1 = k then (k, v) else q)) k' = pyGet d k' := by
  induction d with
  | nil => rfl
  | cons q d' ih =>
    by_cases hq : q.1 = k
    · have hne : ¬ (k = k') := fun hc => h hc.symm
      have hne2 : ¬ (q.1 = k') := by rw [hq]; exact hne
      simp only [List.map_cons, if_pos hq, pyGet, List.find?]
      rw [decide_eq_false hne, decide_eq_false hne2]
      exact ih
    · simp only [List.map_cons, if_neg hq, pyGet, List.find?]
      cases hd : decide (q.1 = k')
      · exact ih
      · rfl

theorem pyGet_append_single_ne {α : Type} (d : List (String × α)) (k k' : String)
    (v : α) (h : ¬ k' = k) :
    pyGet (d ++ [(k, v)]) k' = pyGet d k' := by
  induction d with
  | nil =>
    have hne : ¬ (k = k') := fun hc => h hc.symm
    simp [pyGet, List.find?, decide_eq_false hne]
  | cons q d' ih =>
    simp only [List.cons_append, pyGet, List.find?]
    cases hd : decide (q.1 = k')
    · exact ih
    · rfl

theorem pyGet_dictSet_ne {α : Type} (d : List (String × α)) (k k' : String) (v : α)
    (h : ¬ k' = k) :
    pyGet (dictSet d k v) k' = pyGet d k' := by
  unfold dictSet
  split
  · exact pyGet_map_set_ne d k k' v h
  · exact pyGet_append_single_ne d k k' v h

theorem pyGet_dictSet_same {α : Type} (d : List (String × α)) (k : String) (v : α) :
    pyGet (dictSet d k v) k = some v := by
  induction d with
  | nil => simp [dictSet, pyGet, List.find?]
  | cons q d' ih =>
    obtain ⟨k0, v0⟩ := q
    by_cases hk0 : k0 = k
    · have hcond : (((k0, v0) :: d').any (fun p => p.1 = k)) = true := by
        simp [List.any_cons, hk0]
      simp only [dictSet, hcond, if_pos, List.map_cons]
      simp only [hk0, if_pos]
      simp [pyGet, List.find?]
    · by_cases hany : d'.any (fun p => p.1 = k) = true
      · have hcond : ((k0, v0) :: d').any (fun p => p.1 = k) = true := by
          simp [List.any_cons, hany]
        simp only [dictSet, hcond, if_pos, List.map_cons]
        simp only [if_neg hk0]
        have hrw : d'.map (fun p => if p.1 = k then (k, v) else p) = dictSet d' k v := by
          unfold dictSet
          rw [if_pos hany]
        simp only [pyGet, List.find?, decide_eq_false hk0]
        rw [← pyGet, hrw]
        exact ih
      · have hcond : ¬ ((k0, v0) :: d').any (fun p => p.1 = k) = true := by
          simp [List.any_cons, hk0]
          simpa using hany
        simp only [dictSet, if_neg hcond, List.cons_append]
        have hrw : d' ++ [(k, v)] = dictSet d' k v := by
          unfold dictSet
          rw [if_neg hany]
        simp only [pyGet, List.find?, decide_eq_false hk0]
        rw [← pyGet, hrw]
        exact ih

theorem hasKey_eq_isSome {α : Type} (d : List (String × α)) (k : String) :
    hasKey d k = (pyGet d k).isSome := by
  induction d with
  | nil => rfl
  | cons q d' ih =>
    simp only [hasKey, List.any_cons, pyGet, List.find?]
    cases hd : decide (q.1 = k)
    · simpa [hasKey, pyGet, hd] using ih
    · simp [hd]

/-! ### Record-assembly step lemmas -/

theorem basePmidDict_eq (p : Elem) :
    basePmidDict p = [("pmid", valOfOptStr p.text),
      ("id", Val.str (sourceName ++ "_" ++ pyStrOfOpt p.text))] := by
  rfl

theorem pyGet_basePmid_pmid (p : Elem) :
    pyGet (basePmidDict p) "pmid" = some (valOfOptStr p.text) := by
  rw [basePmidDict_eq]; rfl

theorem pyGet_basePmid_ne (p : Elem) (k : String) (h1 : ¬ k = "pmid")
    (h2 : ¬ k = "id") : pyGet (basePmidDict p) k = Option.none := by
  rw [basePmidDict_eq]
  have h1' : ¬ ("pmid" = k) := fun hc => h1 hc.symm
  have h2' : ¬ ("id" = k) := fun hc => h2 hc.symm
  simp [pyGet, List.find?, h1', h2']

theorem pyGet_textsStep_ne (a : Elem) (d : Record) (k : String)
    (h : ¬ k = "abstract_texts") : pyGet (textsStep a d) k = pyGet d k := by
  unfold textsStep
  split
  · rfl
  · exact pyGet_dictSet_ne d "abstract_texts" k _ h

theorem pyGet_textsStep_same (a : Elem) (d : Record)
    (h : pyGet d "abstract_texts" = Option.none) :
    pyGet (textsStep a d) "abstract_texts"
      = (if (getTexts a).isEmpty then Option.none
         else some (Val.texts (getTexts a))) := by
  unfold textsStep
  split
  · exact h
  · exact pyGet_dictSet_same d "abstract_texts" _

theorem pyGet_titleStep_ne (a : Elem) (d : Record) (k : String)
    (h : ¬ k = "title") : pyGet (titleStep a d) k = pyGet d k := by
  unfold titleStep
  split
  · rfl
  · split
    · rfl
    · exact pyGet_dictSet_ne d "title" k _ h

theorem string_ne_empty_of_isEmpty_false {s : String} (h : s.isEmpty = false) :
    ¬ s = "" := by
  intro hc
  rw [hc] at h
  exact absurd h (by decide)

theorem pyGet_titleStep_title (a : Elem) (d : Record) :
    pyGet (titleStep a d) "title" = pyGet d "title"
    ∨ ∃ s, pyGet (titleStep a d) "title" = some (Val.str s) ∧ ¬ s = "" := by
  unfold titleStep
  split
  · exact Or.inl rfl
  · rename_i t heq
    split
    · exact Or.inl rfl
    · rename_i hemp
      right
      refine ⟨cleanText (tostring t), pyGet_dictSet_same d "title" _, ?_⟩
      exact string_ne_empty_of_isEmpty_false (by simpa using hemp)

theorem list_ne_nil_of_isEmpty_false {α : Type} {l : List α} (h : l.isEmpty = false) :
    ¬ l = [] := by
  intro hc
  rw [hc] at h
  simp at h

theorem pyGet_authorsStep_ne (a : Elem) (d : Record) (k : String)
    (h1 : ¬ k = "authors") (h2 : ¬ k = "collective_name") :
    pyGet (authorsStep a d) k = pyGet d k := by
  unfold authorsStep
  split
  · split
    · rfl
    · exact pyGet_dictSet_ne d "authors" k _ h1
  · rw [pyGet_dictSet_ne _ "collective_name" k _ h2]
    split
    · rfl
    · exact pyGet_dictSet_ne d "authors" k _ h1

theorem pyGet_authorsStep_authors (a : Elem) (d : Record)
    (h : pyGet d "authors" = Option.none) :
    pyGet (authorsStep a d) "authors" = Option.none
    ∨ ∃ al, pyGet (authorsStep a d) "authors" = some (Val.authors al) ∧ ¬ al = [] := by
  unfold authorsStep
  split
  · split
    · exact Or.inl h
    · rename_i hemp
      exact Or.inr ⟨(getAuthors a).1, pyGet_dictSet_same d "authors" _,
        list_ne_nil_of_isEmpty_false (by simpa using hemp)⟩
  · rw [pyGet_dictSet_ne _ "collective_name" "authors" _ (by decide)]
    split
    · exact Or.inl h
    · rename_i hemp
      exact Or.inr ⟨(getAuthors a).1, pyGet_dictSet_same d "authors" _,
        list_ne_nil_of_isEmpty_false (by simpa using hemp)⟩

theorem pyGet_authorsStep_coll (a : Elem) (d : Record)
    (h : pyGet d "collective_name" = Option.none) :
    pyGet (authorsStep a d) "collective_name" = Option.none
    ∨ ∃ s, pyGet (authorsStep a d) "collective_name" = some (Val.str s) := by
  unfold authorsStep
  split
  · split
    · exact Or.inl h
    · rw [pyGet_dictSet_ne d "authors" "collective_name" _ (by decide)]
      exact Or.inl h
  · rename_i cn _
    exact Or.inr ⟨cn, pyGet_dictSet_same _ "collective_name" _⟩

/-! ### The master characterisation of an emitted record -/

theorem pyGet_gateDict_ne (p a jt : Elem) (dv : Val) (k : String)
    (h1 : ¬ k = "title") (h2 : ¬ k = "journal_title") (h3 : ¬ k = "date")
    (h4 : ¬ k = "abstract_texts") (h5 : ¬ k = "pmid") (h6 : ¬ k = "id") :
    pyGet (gateDict p a jt dv) k = Option.none := by
  unfold gateDict
  rw [pyGet_titleStep_ne _ _ k h1, pyGet_dictSet_ne _ "journal_title" k _ h2,
    pyGet_dictSet_ne _ "date" k _ h3, pyGet_textsStep_ne _ _ k h4,
    pyGet_basePmid_ne _ k h5 h6]

theorem pyGet_gateDict_pmid (p a jt : Elem) (dv : Val) :
    pyGet (gateDict p a jt dv) "pmid" = some (valOfOptStr p.text) := by
  unfold gateDict
  rw [pyGet_titleStep_ne _ _ _ (by decide), pyGet_dictSet_ne _ "journal_title" _ _ (by decide),
    pyGet_dictSet_ne _ "date" _ _ (by decide), pyGet_textsStep_ne _ _ _ (by decide),
    pyGet_basePmid_pmid]

theorem pyGet_gateDict_date (p a jt : Elem) (dv : Val) :
    pyGet (gateDict p a jt dv) "date" = some dv := by
  unfold gateDict
  rw [pyGet_titleStep_ne _ _ _ (by decide), pyGet_dictSet_ne _ "journal_title" _ _ (by decide),
    pyGet_dictSet_same]

theorem pyGet_gateDict_texts (p a jt : Elem) (dv : Val) :
    pyGet (gateDict p a jt dv) "abstract_texts"
      = (if (getTexts a).isEmpty then Option.none
         else some (Val.texts (getTexts a))) := by
  unfold gateDict
  rw [pyGet_titleStep_ne _ _ _ (by decide), pyGet_dictSet_ne _ "journal_title" _ _ (by decide),
    pyGet_dictSet_ne _ "date" _ _ (by decide),
    pyGet_textsStep_same _ _ (pyGet_basePmid_ne _ _ (by decide) (by decide))]

theorem pyGet_gateDict_title (p a jt : Elem) (dv : Val) :
    pyGet (gateDict p a jt dv) "title" = Option.none
    ∨ ∃ s, pyGet (gateDict p a jt dv) "title" = some (Val.str s) ∧ ¬ s = "" := by
  unfold gateDict
  rcases pyGet_titleStep_title a
      (dictSet (dictSet (textsStep a (basePmidDict p)) "date" dv)
        "journal_title" (valOfOptStr jt.text)) with heq | hsome
  · left
    rw [heq, pyGet_dictSet_ne _ "journal_title" _ _ (by decide),
      pyGet_dictSet_ne _ "date" _ _ (by decide), pyGet_textsStep_ne _ _ _ (by decide),
      pyGet_basePmid_ne _ _ (by decide) (by decide)]
  · exact Or.inr hsome

theorem getAbstractData_emit {el : Elem} {r : Record}
    (h : getAbstractData el = Except.ok (some r)) :
    ∃ mc articleEl,
      find el "MedlineCitation" = some mc
      ∧ (∃ pmidEl, find mc "PMID" = some pmidEl
          ∧ pyGet r "pmid" = some (valOfOptStr pmidEl.text))
      ∧ isReview mc = Except.ok false
      ∧ find mc "Article" = some articleEl
      ∧ (∃ dv, dateField articleEl = Except.ok dv ∧ pyGet r "date" = some dv)
      ∧ pyGet r "abstract_texts"
          = (if (getTexts articleEl).isEmpty then Option.none
             else some (Val.texts (getTexts articleEl)))
      ∧ (pyGet r "title" = Option.none
          ∨ ∃ s, pyGet r "title" = some (Val.str s) ∧ ¬ s = "")
      ∧ ((pyGet r "title").isSome ∨ (pyGet r "abstract_texts").isSome)
      ∧ isReviewInText (combinedText (pyGet r "title") (pyGet r "abstract_texts")) = false
      ∧ (pyGet r "authors" = Option.none
          ∨ ∃ al, pyGet r "authors" = some (Val.authors al) ∧ ¬ al = [])
      ∧ (pyGet r "collective_name" = Option.none
          ∨ ∃ s, pyGet r "collective_name" = some (Val.str s))
      ∧ (∃ dc, getDate mc "DateCompleted" = Except.ok dc
          ∧ pyGet r "date_completed" = some (valOfOptDate dc))
      ∧ (∃ dr, getDate mc "DateRevised" = Except.ok dr
          ∧ pyGet r "date_revised" = some (valOfOptDate dr))
      ∧ (∃ da, getDate articleEl "ArticleDate" = Except.ok da
          ∧ pyGet r "date_article" = some (valOfOptDate da)) := by
  unfold getAbstractData at h
  split at h
  · exact absurd h (by simp)
  rename_i mc hmc
  split at h
  · exact absurd h (by simp)
  rename_i pmidEl hpmid
  split at h
  · exact absurd h (by simp)
  · exact absurd h (by simp)
  rename_i hrev
  split at h
  · exact absurd h (by simp)
  rename_i articleEl hart
  split at h
  · exact absurd h (by simp)
  rename_i dv hdv
  split at h
  · exact absurd h (by simp)
  rename_i jt hjt
  split at h
  · exact absurd h (by simp)
  rename_i hg1
  split at h
  · exact absurd h (by simp)
  rename_i hg2
  split at h
  · exact absurd h (by simp)
  rename_i dc hdc
  split at h
  · exact absurd h (by simp)
  rename_i dr hdr
  split at h
  · exact absurd h (by simp)
  rename_i da hda
  simp only [Except.ok.injEq, Option.some.injEq] at h
  subst h
  have hpeel : ∀ k, ¬ k = "date_completed" → ¬ k = "date_revised" →
      ¬ k = "date_article" → ¬ k = "authors" → ¬ k = "collective_name" →
      pyGet (dictSet (dictSet (dictSet
          (authorsStep articleEl (gateDict pmidEl articleEl jt dv))
          "date_completed" (valOfOptDate dc)) "date_revised" (valOfOptDate dr))
          "date_article" (valOfOptDate da)) k
        = pyGet (gateDict pmidEl articleEl jt dv) k := by
    intro k h1 h2 h3 h4 h5
    rw [pyGet_dictSet_ne _ "date_article" k _ h3, pyGet_dictSet_ne _ "date_revised" k _ h2,
      pyGet_dictSet_ne _ "date_completed" k _ h1, pyGet_authorsStep_ne _ _ k h4 h5]
  have hgate : (hasKey (gateDict pmidEl articleEl jt dv) "title"
      || hasKey (gateDict pmidEl articleEl jt dv) "abstract_texts") = true := by
    revert hg1
    cases (hasKey (gateDict pmidEl articleEl jt dv) "title"
      || hasKey (gateDict pmidEl articleEl jt dv) "abstract_texts")
    · intro hg1; simp at hg1
    · intro _; rfl
  have hg2' : isReviewInText
      (combinedText (pyGet (gateDict pmidEl articleEl jt dv) "title")
        (pyGet (gateDict pmidEl articleEl jt dv) "abstract_texts")) = false := by
    revert hg2
    cases hb : isReviewInText
        (combinedText (pyGet (gateDict pmidEl articleEl jt dv) "title")
          (pyGet (gateDict pmidEl articleEl jt dv) "abstract_texts"))
    · intro _; rfl
    · intro hg2; simp at hg2
  refine ⟨mc, articleEl, hmc, ⟨pmidEl, hpmid, ?_⟩, hrev, hart, ⟨dv, hdv, ?_⟩,
    ?_, ?_, ?_, ?_, ?_, ?_, ⟨dc, hdc, ?_⟩, ⟨dr, hdr, ?_⟩, ⟨da, hda, ?_⟩⟩
  · rw [hpeel "pmid" (by decide) (by decide) (by decide) (by decide) (by decide),
      pyGet_gateDict_pmid]
  · rw [hpeel "date" (by decide) (by decide) (by decide) (by decide) (by decide),
      pyGet_gateDict_date]
  · rw [hpeel "abstract_texts" (by decide) (by decide) (by decide) (by decide) (by decide),
      pyGet_gateDict_texts]
  · rw [hpeel "title" (by decide) (by decide) (by decide) (by decide) (by decide)]
    exact pyGet_gateDict_title pmidEl articleEl jt dv
  · rw [hpeel "title" (by decide) (by decide) (by decide) (by decide) (by decide),
      hpeel "abstract_texts" (by decide) (by decide) (by decide) (by decide) (by decide)]
    rw [hasKey_eq_isSome, hasKey_eq_isSome] at hgate
    rcases Bool.or_eq_true_iff.mp hgate with h1 | h1
    · exact Or.inl h1
    · exact Or.inr h1
  · rw [hpeel "title" (by decide) (by decide) (by decide) (by decide) (by decide),
      hpeel "abstract_texts" (by decide) (by decide) (by decide) (by decide) (by decide)]
    exact hg2'
  · rw [pyGet_dictSet_ne _ "date_article" _ _ (by decide),
      pyGet_dictSet_ne _ "date_revised" _ _ (by decide),
      pyGet_dictSet_ne _ "date_completed" _ _ (by decide)]
    exact pyGet_authorsStep_authors _ _
      (pyGet_gateDict_ne _ _ _ _ _ (by decide) (by decide) (by decide) (by decide)
        (by decide) (by decide))
  · rw [pyGet_dictSet_ne _ "date_article" _ _ (by decide),
      pyGet_dictSet_ne _ "date_revised" _ _ (by decide),
      pyGet_dictSet_ne _ "date_completed" _ _ (by decide)]
    exact pyGet_authorsStep_coll _ _
      (pyGet_gateDict_ne _ _ _ _ _ (by decide) (by decide) (by decide) (by decide)
        (by decide) (by decide))
  · rw [pyGet_dictSet_ne _ "date_article" _ _ (by decide),
      pyGet_dictSet_ne _ "date_revised" _ _ (by decide), pyGet_dictSet_same]
  · rw [pyGet_dictSet_ne _ "date_article" _ _ (by decide), pyGet_dictSet_same]
  · rw [pyGet_dictSet_same]

/-! ### Claim theorems on the record assembly -/

/-- **C10.** Every emitted record carries the keys `date_completed`,
`date_revised` and `date_article`, holding the (possibly `None`) result of
the corresponding `_get_date` call; the optional fields `title`,
`abstract_texts`, `authors` and `collective_name` are present only with a
non-empty value (`collective_name` only as an actual string, never `None`). -/
theorem C10_record_shape (el : Elem) (r : Record)
    (h : getAbstractData el = Except.ok (some r)) :
    (∃ mc articleEl, find el "MedlineCitation" = some mc
      ∧ find mc "Article" = some articleEl
      ∧ (∃ dc, getDate mc "DateCompleted" = Except.ok dc
          ∧ pyGet r "date_completed" = some (valOfOptDate dc))
      ∧ (∃ dr, getDate mc "DateRevised" = Except.ok dr
          ∧ pyGet r "date_revised" = some (valOfOptDate dr))
      ∧ (∃ da, getDate articleEl "ArticleDate" = Except.ok da
          ∧ pyGet r "date_article" = some (valOfOptDate da)))
    ∧ (∀ v, pyGet r "title" = some v → ∃ s, v = Val.str s ∧ ¬ s = "")
    ∧ (∀ v, pyGet r "abstract_texts" = some v → ∃ segs, v = Val.texts segs ∧ ¬ segs = [])
    ∧ (∀ v, pyGet r "authors" = some v → ∃ al, v = Val.authors al ∧ ¬ al = [])
    ∧ (∀ v, pyGet r "collective_name" = some v → ∃ s, v = Val.str s) := by
  rcases getAbstractData_emit h with
    ⟨mc, articleEl, hmc, _, hrev, hart, _, htexts, htitle, _, _, hauth, hcoll,
      hdc, hdr, hda⟩
  refine ⟨⟨mc, articleEl, hmc, hart, hdc, hdr, hda⟩, ?_, ?_, ?_, ?_⟩
  · intro v hv
    rcases htitle with hnone | ⟨s, hs, hne⟩
    · rw [hnone] at hv; cases hv
    · rw [hs] at hv; exact ⟨s, (Option.some.inj hv).symm, hne⟩
  · intro v hv
    rw [htexts] at hv
    split at hv
    · cases hv
    · rename_i hemp
      refine ⟨getTexts articleEl, (Option.some.inj hv).symm, ?_⟩
      intro hc
      exact hemp (by rw [hc]; rfl)
  · intro v hv
    rcases hauth with hnone | ⟨al, hal, hne⟩
    · rw [hnone] at hv; cases hv
    · rw [hal] at hv; exact ⟨al, (Option.some.inj hv).symm, hne⟩
  · intro v hv
    rcases hcoll with hnone | ⟨s, hs⟩
    · rw [hnone] at hv; cases hv
    · rw [hs] at hv; exact ⟨s, (Option.some.inj hv).symm⟩

/-- **C8.** The `date` field of an emitted record is the structured
`Journal/JournalIssue/PubDate/Year` text whenever that element is present
(taking precedence over `MedlineDate`); otherwise it is the first four
characters of the `MedlineDate` text; and when both elements are absent the
entry raises `AttributeError` (reported, not defaulted) once it reaches the
date assembly. -/
theorem C8_date_field (el mc articleEl : Elem)
    (hmc : find el "MedlineCitation" = some mc)
    (hart : find mc "Article" = some articleEl) :
    (∀ r, getAbstractData el = Except.ok (some r) →
      (∀ yEl, findPath articleEl ["Journal", "JournalIssue", "PubDate", "Year"] = some yEl →
        pyGet r "date" = some (valOfOptStr yEl.text))
      ∧ (findPath articleEl ["Journal", "JournalIssue", "PubDate", "Year"] = Option.none →
        ∀ mEl t,
          findPath articleEl ["Journal", "JournalIssue", "PubDate", "MedlineDate"] = some mEl →
          mEl.text = some t → pyGet r "date" = some (Val.str (pyTake4 t))))
    ∧ (findPath articleEl ["Journal", "JournalIssue", "PubDate", "Year"] = Option.none →
       findPath articleEl ["Journal", "JournalIssue", "PubDate", "MedlineDate"] = Option.none →
       ∀ pEl, find mc "PMID" = some pEl → isReview mc = Except.ok false →
       getAbstractData el = Except.error PyErr.attributeError) := by
  constructor
  · intro r h
    rcases getAbstractData_emit h with
      ⟨mc', articleEl', hmc', _, _, hart', ⟨dv, hdv, hdate⟩, _⟩
    rw [hmc] at hmc'
    have hmceq := Option.some.inj hmc'
    subst hmceq
    rw [hart] at hart'
    have harteq := Option.some.inj hart'
    subst harteq
    constructor
    · intro yEl hy
      unfold dateField at hdv
      simp only [hy] at hdv
      rw [hdate, ← Except.ok.inj hdv]
    · intro hyn mEl t hm ht
      unfold dateField at hdv
      simp only [hyn, hm, ht] at hdv
      rw [hdate, ← Except.ok.inj hdv]
  · intro hyn hmn pEl hpmid hrev
    have hdf : dateField articleEl = Except.error PyErr.attributeError := by
      unfold dateField
      simp only [hyn, hmn]
    unfold getAbstractData
    simp only [hmc, hpmid, hrev, hart, hdf]

/-- **C6.** An entry whose `PublicationTypeList` contains a
`PublicationType` whose text contains "review" case-insensitively yields no
record, whatever else the entry contains. -/
theorem C6_pubtype_discard (el mc articleEl ptl ptEl : Elem) (t : String)
    (hmc : find el "MedlineCitation" = some mc)
    (hart : find mc "Article" = some articleEl)
    (hptl : find articleEl "PublicationTypeList" = some ptl)
    (hmem : ptEl ∈ findall ptl "PublicationType")
    (ht : ptEl.text = some t)
    (hcont : containsSub (pyLower t.toList) "review".toList = true) :
    ∀ r, ¬ getAbstractData el = Except.ok (some r) := by
  intro r h
  rcases getAbstractData_emit h with ⟨mc', _, hmc', _, hrev, _⟩
  rw [hmc] at hmc'
  have hmceq := Option.some.inj hmc'
  subst hmceq
  have hany : (findall ptl "PublicationType").any (fun e => textHasReview e.text) = true :=
    List.any_eq_true.mpr ⟨ptEl, hmem, by simp only [textHasReview, ht]; simpa using hcont⟩
  have htrue : isReview mc = Except.ok true := by
    unfold isReview
    simp only [hart, hptl, hany]
    rfl
  rw [htrue] at hrev
  cases hrev

/-! ### The free-text phrase gate finds a phrase inside any abstract segment -/

theorem toList_append_str (a b : String) : (a ++ b).toList = a.toList ++ b.toList := rfl

theorem map_eq_append_split {α β : Type} (f : α → β) :
    ∀ (l : List α) (x y : List β), l.map f = x ++ y →
    ∃ lx ly, l = lx ++ ly ∧ lx.map f = x ∧ ly.map f = y := by
  intro l
  induction l with
  | nil =>
    intro x y h
    rcases List.append_eq_nil.mp h.symm with ⟨hx, hy⟩
    exact ⟨[], [], rfl, by simp [hx], by simp [hy]⟩
  | cons c l' ih =>
    intro x y h
    cases x with
    | nil => exact ⟨[], c :: l', rfl, rfl, by simpa using h⟩
    | cons x0 x' =>
      simp only [List.map_cons, List.cons_append, List.cons.injEq] at h
      rcases ih x' y h.2 with ⟨lx, ly, hl, hx, hy⟩
      exact ⟨c :: lx, ly, by simp [hl], by simp [hx, h.1], hy⟩

theorem pyReprSegment_decomp (g : Segment) : ∃ a b : List Char,
    (pyReprSegment g).toList = a ++ g.text.toList ++ b := by
  refine ⟨"\x7b\x27text\x27: \x27".toList, ("\x27" ++ segCatRepr g ++ "\x7d").toList, ?_⟩
  simp [pyReprSegment, pyReprStr, toList_append_str, List.append_assoc]

theorem seg_text_in_joinSegs (seg : Segment) :
    ∀ segs, seg ∈ segs → ∃ a b : List Char,
      (joinSegs segs).toList = a ++ seg.text.toList ++ b := by
  intro segs
  induction segs with
  | nil => intro hm; simp at hm
  | cons g rest ih =>
    intro hm
    cases rest with
    | nil =>
      have hg : seg = g := by simpa using hm
      subst hg
      exact pyReprSegment_decomp seg
    | cons g2 rest' =>
      rcases List.mem_cons.mp hm with hg | hm'
      · subst hg
        rcases pyReprSegment_decomp seg with ⟨a, b, hab⟩
        refine ⟨a, b ++ (", " ++ joinSegs (g2 :: rest')).toList, ?_⟩
        show (pyReprSegment seg ++ ", " ++ joinSegs (g2 :: rest')).toList = _
        simp only [toList_append_str, hab, List.append_assoc]
      · rcases ih hm' with ⟨a, b, hab⟩
        refine ⟨(pyReprSegment g ++ ", ").toList ++ a, b, ?_⟩
        show (pyReprSegment g ++ ", " ++ joinSegs (g2 :: rest')).toList = _
        simp only [toList_append_str, hab, List.append_assoc]

theorem seg_text_in_reprTexts (seg : Segment) (segs : List Segment) (hm : seg ∈ segs) :
    ∃ a b : List Char, (pyReprTexts segs).toList = a ++ seg.text.toList ++ b := by
  rcases seg_text_in_joinSegs seg segs hm with ⟨a, b, hab⟩
  refine ⟨"[".toList ++ a, b ++ "]".toList, ?_⟩
  show ("[" ++ joinSegs segs ++ "]").toList = _
  simp only [toList_append_str, hab, List.append_assoc]

theorem dropWhile_infix_of_head {p0 : List Char} {ph : Char} {pt : List Char}
    (hp : p0 = ph :: pt) (hh : pyWs ph = false) :
    ∀ (a b : List Char), ∃ a', (a ++ p0 ++ b).dropWhile pyWs = a' ++ p0 ++ b := by
  intro a
  induction a with
  | nil =>
    intro b
    refine ⟨[], ?_⟩
    subst hp
    simp [List.dropWhile_cons, hh]
  | cons x a' ih =>
    intro b
    by_cases hx : pyWs x = true
    · rcases ih b with ⟨a2, ha2⟩
      refine ⟨a2, ?_⟩
      simp only [List.cons_append, List.dropWhile_cons, hx, if_pos]
      exact ha2
    · refine ⟨x :: (a' : List Char), ?_⟩
      simp only [List.cons_append, List.dropWhile_cons, hx, Bool.false_eq_true, if_neg]
      simp

theorem pyStripL_infix {p0 : List Char} {ph qh : Char} {pt qt : List Char}
    (hp : p0 = ph :: pt) (hh : pyWs ph = false)
    (hq : p0.reverse = qh :: qt) (hqh : pyWs qh = false)
    (a b : List Char) :
    ∃ a' b', pyStripL (a ++ p0 ++ b) = a' ++ p0 ++ b' := by
  rcases dropWhile_infix_of_head hp hh a b with ⟨a1, h1⟩
  have h2 : ((a ++ p0 ++ b).dropWhile pyWs).reverse
      = b.reverse ++ p0.reverse ++ a1.reverse := by
    rw [h1]
    simp [List.reverse_append, List.append_assoc]
  rcases dropWhile_infix_of_head hq hqh b.reverse a1.reverse with ⟨b1, h3⟩
  rw [← h2] at h3
  refine ⟨a1, b1.reverse, ?_⟩
  unfold pyStripL
  rw [h3]
  simp [List.reverse_append, List.append_assoc]

theorem toLower_ws_self {x : Char} (h : pyWs x = true) : Char.toLower x = x := by
  simp only [pyWs, Bool.or_eq_true, decide_eq_true_eq] at h
  rcases h with ((((h | h) | h) | h) | h) | h <;> subst h <;> decide

theorem pyWs_false_of_toLower {x c : Char} (hx : Char.toLower x = c)
    (hc : pyWs c = false) : pyWs x = false := by
  cases hpx : pyWs x
  · rfl
  · have := toLower_ws_self hpx
    rw [this] at hx
    subst hx
    rw [hpx] at hc
    cases hc

theorem phrase_in_combined (t? : Option Val) (segs : List Segment) (seg : Segment)
    (hmem : seg ∈ segs)
    (hph : containsSub (pyLower seg.text.toList) "systematic review".toList = true) :
    isReviewInText (combinedText t? (some (Val.texts segs))) = true := by
  obtain ⟨a0, b0, hrep⟩ := seg_text_in_reprTexts seg segs hmem
  obtain ⟨a1, b1, hlow⟩ := (containsSub_iff _ _).mp hph
  rw [List.append_assoc] at hlow
  obtain ⟨st1, st2, hst, hm1, hm2⟩ :=
    map_eq_append_split Char.toLower seg.text.toList a1 ("systematic review".toList ++ b1) hlow
  obtain ⟨P, st3, hst2, hmP, hm3⟩ :=
    map_eq_append_split Char.toLower st2 "systematic review".toList b1 hm2
  have hPcons : ∃ ph pt, P = ph :: pt ∧ Char.toLower ph = 's' := by
    cases P with
    | nil => exact absurd hmP (by decide)
    | cons ph pt =>
      simp only [List.map_cons] at hmP
      exact ⟨ph, pt, rfl, by
        have : Char.toLower ph :: pt.map Char.toLower = "systematic review".toList := hmP
        exact (List.cons.inj this).1⟩
  have hPrev : ∃ qh qt, P.reverse = qh :: qt ∧ Char.toLower qh = 'w' := by
    have hconc : ("systematic review".toList).reverse = 'w' :: "eiver citametsys".toList := by
      decide
    have hmPrev : P.reverse.map Char.toLower = 'w' :: "eiver citametsys".toList := by
      rw [List.map_reverse, hmP, hconc]
    cases hcase : P.reverse with
    | nil => rw [hcase] at hmPrev; exact absurd hmPrev (by decide)
    | cons qh qt =>
      rw [hcase] at hmPrev
      simp only [List.map_cons] at hmPrev
      exact ⟨qh, qt, rfl, (List.cons.inj hmPrev).1⟩
  obtain ⟨ph, pt, hP, hphl⟩ := hPcons
  obtain ⟨qh, qt, hQ, hqhl⟩ := hPrev
  have hphws : pyWs ph = false := pyWs_false_of_toLower hphl (by decide)
  have hqhws : pyWs qh = false := pyWs_false_of_toLower hqhl (by decide)
  -- the combined pre-strip string decomposes around P
  have hL : (strDefault t? ++ "\n" ++ reprDefault (some (Val.texts segs))).toList
      = ((strDefault t? ++ "\n").toList ++ a0 ++ st1) ++ P ++ (st3 ++ b0) := by
    show (strDefault t? ++ "\n" ++ pyReprTexts segs).toList = _
    have hst' : seg.text.toList = st1 ++ (P ++ st3) := by rw [hst, hst2]
    simp only [toList_append_str, hrep, hst', List.append_assoc]
  obtain ⟨A2, B2, hstrip⟩ := pyStripL_infix hP hphws hQ hqhws
    ((strDefault t? ++ "\n").toList ++ a0 ++ st1) (st3 ++ b0)
  rw [← hL] at hstrip
  have hfinal : containsSub
      (pyLower (combinedText t? (some (Val.texts segs))).toList)
      "systematic review".toList = true := by
    have htl : (combinedText t? (some (Val.texts segs))).toList
        = pyStripL ((strDefault t? ++ "\n" ++ reprDefault (some (Val.texts segs))).toList) :=
      rfl
    rw [htl, hstrip]
    apply (containsSub_iff _ _).mpr
    refine ⟨pyLower A2, pyLower B2, ?_⟩
    unfold pyLower
    simp only [List.map_append, hmP, List.append_assoc]
  simp only [isReviewInText, filteringPhrases, List.any_cons, List.any_nil,
    Bool.or_false]
  exact hfinal

/-- **C7.** An entry one of whose cleaned abstract segments contains the
phrase "systematic review" (case-insensitively) yields no record, whether
or not any structural review signal is present: the free-text gate sees the
phrase inside the `f"{title}\n{abstract_texts}"` string. -/
theorem C7_phrase_discard (el mc articleEl : Elem)
    (hmc : find el "MedlineCitation" = some mc)
    (hart : find mc "Article" = some articleEl)
    (hseg : ∃ seg ∈ getTexts articleEl,
      containsSub (pyLower seg.text.toList) "systematic review".toList = true) :
    ∀ r, ¬ getAbstractData el = Except.ok (some r) := by
  intro r h
  rcases getAbstractData_emit h with
    ⟨mc', articleEl', hmc', _, _, hart', _, htexts, _, _, hgate2, _⟩
  rw [hmc] at hmc'
  have hmceq := Option.some.inj hmc'
  subst hmceq
  rw [hart] at hart'
  have harteq := Option.some.inj hart'
  subst harteq
  rcases hseg with ⟨seg, hm, hph⟩
  have hne : (getTexts articleEl).isEmpty = false := by
    cases hgt : getTexts articleEl with
    | nil => rw [hgt] at hm; simp at hm
    | cons g gs => rfl
  rw [if_neg (by simp [hne])] at htexts
  rw [htexts] at hgate2
  rw [phrase_in_combined (pyGet r "title") (getTexts articleEl) seg hm hph] at hgate2
  cases hgate2

theorem parseFileAux_mem : ∀ (els : List Elem) (r : Record),
    r ∈ (parseFileAux els).1 →
    ∃ el ∈ els, getAbstractData el = Except.ok (some r) := by
  intro els
  induction els with
  | nil => intro r hr; simp [parseFileAux] at hr
  | cons el rest ih =>
    intro r hr
    unfold parseFileAux at hr
    split at hr
    · simp at hr
    · rcases ih r hr with ⟨el', hmem, heq⟩
      exact ⟨el', List.mem_cons_of_mem _ hmem, heq⟩
    · rename_i r0 heq0
      rcases List.mem_cons.mp hr with rfl | hr'
      · exact ⟨el, List.mem_cons_self _ _, heq0⟩
      · rcases ih r hr' with ⟨el', hmem, heq⟩
        exact ⟨el', List.mem_cons_of_mem _ hmem, heq⟩

/-- **C1.** Every record emitted by `parse_file` comes from a
`PubmedArticle` entry, carries a `pmid` field, passed both review
classifiers (structural and free-text), and has at least one of `title` /
`abstract_texts` — present only as a non-empty cleaned value. -/
theorem C1_emitted_invariants (root : Elem) (r : Record)
    (hr : r ∈ (parseFile root).1) :
    ∃ el ∈ findall root "PubmedArticle",
      getAbstractData el = Except.ok (some r)
      ∧ ∃ mc, find el "MedlineCitation" = some mc
        ∧ (pyGet r "pmid").isSome
        ∧ isReview mc = Except.ok false
        ∧ isReviewInText (combinedText (pyGet r "title") (pyGet r "abstract_texts")) = false
        ∧ ((∃ s, pyGet r "title" = some (Val.str s) ∧ ¬ s = "")
           ∨ (∃ segs, pyGet r "abstract_texts" = some (Val.texts segs) ∧ ¬ segs = [])) := by
  rcases parseFileAux_mem _ r hr with ⟨el, hmem, heq⟩
  rcases getAbstractData_emit heq with
    ⟨mc, articleEl, hmc, ⟨pmidEl, _, hpm⟩, hrev, _, _, htexts, htitle, hpres, hgate2, _⟩
  refine ⟨el, hmem, heq, mc, hmc, by rw [hpm]; rfl, hrev, hgate2, ?_⟩
  rcases hpres with hts | has
  · rcases htitle with hnone | ⟨s, hs, hne⟩
    · rw [hnone] at hts; cases hts
    · exact Or.inl ⟨s, hs, hne⟩
  · right
    rw [htexts] at has ⊢
    split at has
    · cases has
    · rename_i hemp
      split
      · rename_i hemp2
        exact absurd hemp2 hemp
      · refine ⟨getTexts articleEl, rfl, ?_⟩
        intro hc
        exact hemp (by rw [hc]; rfl)

/-- Witness for C1: the sample document's one record satisfies all the
emission invariants. -/
theorem C1_witness :
    ∃ el ∈ findall wRoot "PubmedArticle",
      getAbstractData el = Except.ok (some wRec)
      ∧ ∃ mc, find el "MedlineCitation" = some mc
        ∧ (pyGet wRec "pmid").isSome
        ∧ isReview mc = Except.ok false
        ∧ isReviewInText
            (combinedText (pyGet wRec "title") (pyGet wRec "abstract_texts")) = false
        ∧ ((∃ s, pyGet wRec "title" = some (Val.str s) ∧ ¬ s = "")
           ∨ (∃ segs, pyGet wRec "abstract_texts" = some (Val.texts segs) ∧ ¬ segs = [])) :=
  C1_emitted_invariants wRoot wRec (by decide)

/-- Witness for C8: on the sample document the emitted `date` is the
structured `Year` text. -/
theorem C8_witness :
    pyGet wRec "date" = some (valOfOptStr wYear.text) :=
  ((C8_date_field wArticle wMC wArt rfl rfl).1 wRec (by rfl)).1 wYear rfl

/-- Witness for C10: the sample record carries the three date keys tied to
`_get_date`, and its optional fields hold non-empty values. -/
theorem C10_witness :
    ∃ mc articleEl, find wArticle "MedlineCitation" = some mc
      ∧ find mc "Article" = some articleEl
      ∧ (∃ dc, getDate mc "DateCompleted" = Except.ok dc
          ∧ pyGet wRec "date_completed" = some (valOfOptDate dc))
      ∧ (∃ dr, getDate mc "DateRevised" = Except.ok dr
          ∧ pyGet wRec "date_revised" = some (valOfOptDate dr))
      ∧ (∃ da, getDate articleEl "ArticleDate" = Except.ok da
          ∧ pyGet wRec "date_article" = some (valOfOptDate da)) :=
  (C10_record_shape wArticle wRec (by rfl)).1

/-- Witness for C6: the `Review`-typed entry yields no record (it is in
fact discarded with `ok None`). -/
theorem C6_witness :
    getAbstractData wArticleRev = Except.ok Option.none
    ∧ ¬ getAbstractData wArticleRev = Except.ok (some wRec) :=
  ⟨by rfl,
   C6_pubtype_discard wArticleRev wMCRev wArtRev wPtl wPtEl "Review" rfl rfl rfl
     (List.mem_singleton.mpr rfl) rfl (by decide) wRec⟩

/-- Witness for C7: the systematic-review entry is discarded by the
free-text phrase gate. -/
theorem C7_witness :
    getAbstractData wArticleSys = Except.ok Option.none
    ∧ ¬ getAbstractData wArticleSys = Except.ok (some wRec) :=
  ⟨by rfl,
   C7_phrase_discard wArticleSys wMCSys wArtSys rfl rfl
     ⟨⟨"This is a systematic review of trials.", Option.none⟩,
       List.mem_singleton.mpr rfl, by decide⟩ wRec⟩

end Parsers
